import Mathlib

/-!
# Calculator core of `src/App.js`

A shallow embedding of the expression-buffer state machine of the `App`
component: the two pieces of React state (`input`, `result`) become a
`State` record, and every handler (`append`, `handleDelete`, `handlePercent`,
`handleAnswer`) becomes a function `State → State`.  One button press is one
transition: the handler reads `input`/`result` of the current render and its
functional updater `setInput (s => …)` is applied to that same `input`.

JavaScript strings are modelled as lists of characters (`Str`); every
character that can occur here is a single UTF-16 code unit, so `slice`,
`length` and the regular expressions act on list elements.

`handleAnswer` and `computePreview` run the buffer as JavaScript source
through `Function(src)()`.  That call is a parameter `run : Str → Outcome` of
the two functions, so that what holds for them holds for any behaviour of the
host engine.  `strictEval` gives the ECMAScript meaning of the call on the
expression fragment the buttons produce (decimal literals joined by single
`+ - * /`), with Numbers as IEEE-754 binary64 values, and `Conforms run` says
that an engine agrees with it there.
-/

namespace Calc

/-- JavaScript string, as the list of its characters. -/
abbrev Str := List Char

/-- The component state: `input` (the expression buffer) and `result`
(the committed result, `''` when absent). -/
structure State where
  input : Str
  result : Str
deriving DecidableEq, Repr

/-- State of a fresh session: `useState('')` twice. -/
def initial : State := ⟨[], []⟩

/-- `s.slice(-1)`: the last character as a string, `''` for the empty string. -/
def sliceLast (s : Str) : Str := s.drop (s.length - 1)

/-- `s.slice(0, -1)`: everything but the last character. -/
def sliceInit (s : Str) : Str := s.take (s.length - 1)

/-- `isOperator(ch)`: `['/', '-', 'X', '÷', '*', '+'].includes(ch)`. -/
def isOperator (ch : Str) : Bool :=
  decide (ch ∈ [['/'], ['-'], ['X'], ['÷'], ['*'], ['+']])

/-- The negated character class `[^*/\-+÷X]` of the regular expression in `append`. -/
def notOpClass (c : Char) : Bool :=
  !(c == '*' || c == '/' || c == '-' || c == '+' || c == '÷' || c == 'X')

/-- `input.match(/([^*/\-+÷X]*)$/)[0]`: the match starts at the leftmost
position from which the rest of the string lies in the character class (the
empty suffix always matches, so the match is never `null`). -/
def currentNumber : Str → Str
  | [] => []
  | c :: cs => if (c :: cs).all notOpClass then c :: cs else currentNumber cs

/-- `append(val)` of `App.js`. -/
def append (val : Str) (st : State) : State :=
  -- if (result) setResult('')
  let result := if st.result ≠ [] then [] else st.result
  if isOperator val then
    if st.input = [] then ⟨st.input, result⟩
    else
      let last := sliceLast st.input
      if isOperator last then ⟨sliceInit st.input ++ val, result⟩
      else ⟨st.input ++ val, result⟩
  else if val = ['.'] then
    let current := currentNumber st.input
    if '.' ∈ current then ⟨st.input, result⟩
    else if current = [] then ⟨st.input ++ ['0', '.'], result⟩
    else ⟨st.input ++ ['.'], result⟩
  else ⟨st.input ++ val, result⟩

/-- `handleDelete()` of `App.js`. -/
def handleDelete (st : State) : State :=
  ⟨if st.input.length > 0 then sliceInit st.input else [], []⟩

/-- The operator labels that `isOperator` accepts. -/
inductive OpKey
  | slash | minus | times | plus | star | obelus
deriving DecidableEq, Repr

/-- The label string of an operator. -/
def OpKey.label : OpKey → Str
  | .slash => ['/']
  | .minus => ['-']
  | .times => ['X']
  | .plus => ['+']
  | .star => ['*']
  | .obelus => ['÷']

/-- The label string of a digit button. -/
def digitLabel (d : Fin 10) : Str := [Nat.digitChar d.val]

/-- An editing press: a digit, the decimal point, an operator, or Delete. -/
inductive EditKey
  | digit (d : Fin 10)
  | dot
  | op (o : OpKey)
  | delete
deriving DecidableEq, Repr

/-- One editing press, dispatched as `onPress` does. -/
def pressEdit (st : State) : EditKey → State
  | .digit d => append (digitLabel d) st
  | .dot => append ['.'] st
  | .op o => append o.label st
  | .delete => handleDelete st

/-- A finite sequence of editing presses, oldest first. -/
def pressAll (st : State) (keys : List EditKey) : State := keys.foldl pressEdit st

/-- Operator test on one character. -/
def isOpChar (c : Char) : Bool := isOperator [c]

/-- The buffer starts with an operator character. -/
def startsWithOperator : Str → Bool
  | [] => false
  | c :: _ => isOpChar c

/-- The buffer contains two adjacent operator characters. -/
def hasAdjacentOperators : Str → Bool
  | a :: b :: rest => (isOpChar a && isOpChar b) || hasAdjacentOperators (b :: rest)
  | _ => false

/-- The buffer neither starts with an operator nor has two operators in a row. -/
def OperatorsOK (b : Str) : Prop :=
  startsWithOperator b = false ∧ hasAdjacentOperators b = false

/-- Every number segment of the buffer has at most one decimal point. -/
def DotsOK (b : Str) : Prop := ∀ seg ∈ b.splitOnP (fun c => isOperator [c]), seg.count '.' ≤ 1

/-- The number segments of a buffer: the maximal runs of non-operator
characters, delimited by operators and the two ends of the buffer. -/
def segments (b : Str) : List Str := b.splitOnP isOpChar

/-! ## JavaScript Numbers

A Number is an IEEE-754 binary64 value.  A finite value is held as the
rational it denotes; arithmetic computes the exact rational result and rounds
it to the nearest representable value, ties to even.
-/

/-- A JavaScript Number.  `fin q` is the finite value `q` (with `fin 0` the
positive zero), `negZero` the negative zero. -/
inductive JsNum
  | nan
  | inf (neg : Bool)
  | negZero
  | fin (q : ℚ)
deriving DecidableEq

/-- Number of binary digits of `n`, by halving (`fuel` bounds the steps). -/
def bitLenAux : Nat → Nat → Nat
  | 0, _ => 0
  | fuel + 1, n => if n = 0 then 0 else bitLenAux fuel (n / 2) + 1

/-- Number of binary digits of `n`: the least `k` with `n < 2 ^ k`. -/
def bitLen (n : Nat) : Nat := bitLenAux n n

/-- The integer nearest to `n / d`, ties to the even one. -/
def roundHalfEven (n d : Nat) : Nat :=
  let q := n / d
  let r := n % d
  if 2 * r < d then q else if d < 2 * r then q + 1 else if q % 2 = 0 then q else q + 1

/-- The binary exponent of `n / d` for positive `n` and `d`: the `k` with
`2 ^ k ≤ n / d < 2 ^ (k + 1)`. -/
def binExp (n d : Nat) : Int :=
  let k : Int := (bitLen n : Int) - (bitLen d : Int)
  if (if 0 ≤ k then d * 2 ^ k.toNat ≤ n else d ≤ n * 2 ^ (-k).toNat) then k else k - 1

/-- Rounding of a non-negative rational to binary64, round-to-nearest-even:
the significand has 53 bits, the least exponent is that of the subnormals
(`-1022`), and a rounded magnitude of `2 ^ 1024` or more overflows (`none`). -/
def roundMag (a : ℚ) : Option ℚ :=
  if a = 0 then some 0 else
    let n := a.num.natAbs
    let d := a.den
    let s : Int := max (binExp n d) (-1022) - 52
    let r : ℚ :=
      if 0 ≤ s then ((roundHalfEven n (d * 2 ^ s.toNat) * 2 ^ s.toNat : Nat) : ℚ)
      else ((roundHalfEven (n * 2 ^ (-s).toNat) d : Nat) : ℚ) / ((2 ^ (-s).toNat : Nat) : ℚ)
    if (2 : ℚ) ^ 1024 ≤ r then none else some r

namespace JsNum

/-- The Number nearest to the rational of sign `neg` and magnitude `a`. -/
def ofSignMag (neg : Bool) (a : ℚ) : JsNum :=
  match roundMag a with
  | none => inf neg
  | some r => if r = 0 then (if neg then negZero else fin 0) else fin (if neg then -r else r)

/-- The Number nearest to a rational; an exact zero is the positive zero. -/
def ofRat (q : ℚ) : JsNum := ofSignMag (decide (q < 0)) |q|

/-- Sign bit. -/
def isNeg : JsNum → Bool
  | nan => false
  | inf neg => neg
  | negZero => true
  | fin q => decide (q < 0)

/-- The rational value of a finite Number. -/
def value? : JsNum → Option ℚ
  | fin q => some q
  | negZero => some 0
  | _ => none

/-- Unary minus. -/
def neg : JsNum → JsNum
  | nan => nan
  | inf b => inf (!b)
  | negZero => fin 0
  | fin q => if q = 0 then negZero else fin (-q)

/-- `x + y` on Numbers. -/
def add (x y : JsNum) : JsNum :=
  match x, y with
  | nan, _ => nan
  | _, nan => nan
  | inf a, inf b => if a = b then inf a else nan
  | inf a, _ => inf a
  | _, inf b => inf b
  | negZero, negZero => negZero
  | negZero, fin q => fin q
  | fin p, negZero => fin p
  | fin p, fin q => ofRat (p + q)

/-- `x - y` on Numbers. -/
def sub (x y : JsNum) : JsNum := add x (neg y)

/-- `x * y` on Numbers. -/
def mul (x y : JsNum) : JsNum :=
  match x.value?, y.value? with
  | some p, some q => ofSignMag (x.isNeg != y.isNeg) (|p| * |q|)
  | some p, none => if y = nan ∨ p = 0 then nan else inf (x.isNeg != y.isNeg)
  | none, some q => if x = nan ∨ q = 0 then nan else inf (x.isNeg != y.isNeg)
  | none, none => if x = nan ∨ y = nan then nan else inf (x.isNeg != y.isNeg)

/-- `x / y` on Numbers. -/
def div (x y : JsNum) : JsNum :=
  match x.value?, y.value? with
  | some p, some q =>
    if q = 0 then (if p = 0 then nan else inf (x.isNeg != y.isNeg))
    else ofSignMag (x.isNeg != y.isNeg) (|p| / |q|)
  | some _, none => if y = nan then nan else if x.isNeg != y.isNeg then negZero else fin 0
  | none, some _ => if x = nan then nan else inf (x.isNeg != y.isNeg)
  | none, none => nan

/-- `Number.isNaN(x)`. -/
def isNaN : JsNum → Bool
  | nan => true
  | _ => false

/-- `Number.isFinite(x)`. -/
def isFinite : JsNum → Bool
  | fin _ => true
  | negZero => true
  | _ => false

/-- `Number.isInteger(x)`. -/
def isInteger : JsNum → Bool
  | fin q => decide (q.den = 1)
  | negZero => true
  | _ => false

end JsNum

/-! ## Number to string, string to Number -/

/-- Decimal digits of a natural number, most significant first. -/
def decimal (n : Nat) : Str := Nat.toDigits 10 n

/-- Decimal numeral of an integer: the digits of its magnitude, after a `-`
when it is negative. -/
def decimalInt (z : Int) : Str :=
  if z < 0 then '-' :: decimal z.natAbs else decimal z.natAbs

/-- The natural number written by a string of decimal digits. -/
def digitsValue (ds : Str) : Nat := ds.foldl (fun acc c => 10 * acc + (c.toNat - 48)) 0

/-- The decimal exponent of a positive rational `v`: the `n` with
`10 ^ (n - 1) ≤ v < 10 ^ n`. -/
def decExp (v : ℚ) : Int :=
  if 1 ≤ v then ((decimal ⌊v⌋.toNat).length : Int)
  else 1 - ((decimal (⌈v⁻¹⌉.toNat - 1)).length : Int)

/-- The significand `s` of `k` digits for which `s × 10 ^ (n - k)` is the
Number `v`, when there is one: of the two integers next to `v / 10 ^ (n - k)`
the one that reads back as `v`, the closer one when both do, the even one on
a tie.  A significand that reaches `10 ^ k` is `10 ^ (k - 1)` one decimal
place higher. -/
def significand? (v : ℚ) (n : Int) (k : Nat) : Option (Nat × Int) :=
  let x : ℚ := v / (10 : ℚ) ^ (n - (k : Int))
  let lo : Nat := ⌊x⌋.toNat
  let hi : Nat := ⌈x⌉.toNat
  let okLo : Bool := decide (roundMag ((lo : ℚ) * (10 : ℚ) ^ (n - (k : Int))) = some v)
  let okHi : Bool := decide (roundMag ((hi : ℚ) * (10 : ℚ) ^ (n - (k : Int))) = some v)
  let pick (s : Nat) : Option (Nat × Int) :=
    if s = 10 ^ k then some (10 ^ (k - 1), n + 1) else some (s, n)
  if okLo && okHi then
    (if x - lo < hi - x then pick lo
     else if hi - x < x - lo then pick hi
     else if lo % 2 = 0 then pick lo else pick hi)
  else if okLo then pick lo
  else if okHi then pick hi
  else none

/-- Search for the least number of digits `k ≥ start` that has a significand. -/
def shortestFrom (v : ℚ) (n : Int) : Nat → Nat → Nat × Int × Nat
  | 0, k => (⌊v / (10 : ℚ) ^ (n - (k : Int))⌋.toNat, n, k)
  | fuel + 1, k =>
    match significand? v n k with
    | some (s, n') => (s, n', k)
    | none => shortestFrom v n fuel (k + 1)

/-- `Number::toString` for a positive finite value `v`: the integers `n`, `k`,
`s` with `k` as small as possible, laid out as ECMAScript prescribes. -/
def positiveToString (v : ℚ) : Str :=
  let (s, n, k) := shortestFrom v (decExp v) 17 1
  let ds := decimal s
  if (k : Int) ≤ n ∧ n ≤ 21 then ds ++ List.replicate (n - k).toNat '0'
  else if 0 < n ∧ n ≤ 21 then ds.take n.toNat ++ '.' :: ds.drop n.toNat
  else if -6 < n ∧ n ≤ 0 then '0' :: '.' :: (List.replicate (-n).toNat '0' ++ ds)
  else
    let e := n - 1
    let tail := 'e' :: (if e < 0 then '-' else '+') :: decimal e.natAbs
    if k = 1 then ds ++ tail else ds.take 1 ++ '.' :: (ds.drop 1 ++ tail)

/-- `String(x)` / `x.toString()` on a Number. -/
def numberToString : JsNum → Str
  | .nan => ['N', 'a', 'N']
  | .inf neg => (if neg then ['-'] else []) ++ ['I', 'n', 'f', 'i', 'n', 'i', 't', 'y']
  | .negZero => ['0']
  | .fin q =>
    if q = 0 then ['0']
    else if q < 0 then '-' :: positiveToString (-q)
    else positiveToString q

/-- `parseFloat(text)` for a text of the shape `\d+\.?\d*` (the only shape
`handlePercent` passes): the Number nearest to the decimal it writes; `NaN`
when the text does not start with a digit. -/
def parseFloat (text : Str) : JsNum :=
  let ip := text.takeWhile Char.isDigit
  if ip = [] then .nan
  else
    match text.dropWhile Char.isDigit with
    | '.' :: rest =>
      let fp := rest.takeWhile Char.isDigit
      JsNum.ofRat ((digitsValue (ip ++ fp) : ℚ) / (10 : ℚ) ^ fp.length)
    | _ => JsNum.ofRat (digitsValue ip : ℚ)

/-- The text lies in the language of `\d+\.?\d*`. -/
def isNumberText (text : Str) : Bool :=
  !(text.takeWhile Char.isDigit).isEmpty &&
    (match text.dropWhile Char.isDigit with
     | [] => true
     | '.' :: rest => rest.all Char.isDigit
     | _ => false)

/-- `input.match(/(\d+\.?\d*)$/)`: `some m[0]`, the match starting at the
leftmost position from which the rest of the string is in the language of
`\d+\.?\d*`; `none` for the `null` of no match. -/
def trailingNumber : Str → Option Str
  | [] => none
  | c :: cs => if isNumberText (c :: cs) then some (c :: cs) else trailingNumber cs

/-- `handlePercent()` of `App.js`. -/
def handlePercent (st : State) : State :=
  match trailingNumber st.input with
  | none => st
  | some m =>
    let num := parseFloat m
    let replaced := numberToString (JsNum.div num (JsNum.ofRat 100))
    ⟨st.input.take (st.input.length - m.length) ++ replaced, []⟩

/-! ## Evaluation -/

/-- `toJsExpr(expr)`: every `X` becomes `*`, every `÷` becomes `/`. -/
def toJsExpr (expr : Str) : Str :=
  expr.map (fun c => if c = 'X' then '*' else if c = '÷' then '/' else c)

/-- The loop `while (e.length > 0 && isOperator(e.slice(-1))) e = e.slice(0, -1)`;
`fuel` bounds the number of iterations. -/
def trimLoop : Nat → Str → Str
  | 0, e => e
  | fuel + 1, e =>
    if e.length > 0 && isOperator (sliceLast e) then trimLoop fuel (sliceInit e) else e

/-- The trailing-operator loop run on `e`: it takes at most `e.length` iterations. -/
def trimTrailing (e : Str) : Str := trimLoop e.length e

/-- What calling `Function(src)()` does: it throws, or returns a Number, or
returns a value that is not a Number. -/
inductive Outcome
  | threw
  | number (x : JsNum)
  | other
deriving DecidableEq

/-- The text handed to `Function`: `"use strict"; return (` jsExpr `)`. -/
def functionBody (jsExpr : Str) : Str :=
  "\"use strict\"; return (".toList ++ jsExpr ++ [')']

/-- The expression of a `functionBody`, when the text has that shape. -/
def bodyExpr? (src : Str) : Option Str :=
  let pre := "\"use strict\"; return (".toList
  if pre.isPrefixOf src ∧ src.getLast? = some ')' then
    some ((src.drop pre.length).take (src.length - pre.length - 1))
  else none

/-- The four binary operator punctuators. -/
def isPunct (c : Char) : Bool := c == '+' || c == '-' || c == '*' || c == '/'

/-- The expression fragment: text over the digits, `.` and the four operator
punctuators in which every maximal run of digits and dots is non-empty, that
is, text with no operator at either end and no two operators in a row. -/
def inFragment (e : Str) : Bool :=
  e.all (fun c => c.isDigit || c == '.' || isPunct c) &&
    (e.splitOnP isPunct).all (fun run => !run.isEmpty)

/-- The mathematical value of a run of digits and dots read as a strict-mode
`DecimalLiteral`; `none` when the run is not one literal (a SyntaxError): an
integer part of several digits starting with `0`, a lone `.`, two dots. -/
def decimalLiteral? (run : Str) : Option ℚ :=
  let ip := run.takeWhile Char.isDigit
  let legacy : Bool := decide (2 ≤ ip.length) && ip.head? == some '0'
  match run.dropWhile Char.isDigit with
  | [] => if legacy then none else some (digitsValue ip : ℚ)
  | '.' :: fp =>
    if !fp.all Char.isDigit then none
    else if ip.isEmpty then
      (if fp.isEmpty then none else some ((digitsValue fp : ℚ) / (10 : ℚ) ^ fp.length))
    else if legacy then none
    else some ((digitsValue (ip ++ fp) : ℚ) / (10 : ℚ) ^ fp.length)
  | _ => none

/-- The values of the runs read as literals, `none` when one of them is not a literal. -/
def literalValues? : List Str → Option (List ℚ)
  | [] => some []
  | run :: runs =>
    match decimalLiteral? run, literalValues? runs with
    | some v, some vs => some (v :: vs)
    | _, _ => none

/-- Reading state of a chain of binary operations: the value to the left of
the pending `+` or `-` with that operator (`none` before the first one), and
the value of the multiplicative expression read so far. -/
structure Pending where
  sum : Option (JsNum × Char)
  term : JsNum

/-- The value of the chain read so far: the pending `+` or `-` applied to the term. -/
def Pending.close (p : Pending) : JsNum :=
  match p.sum with
  | none => p.term
  | some (a, op) => if op = '+' then JsNum.add a p.term else JsNum.sub a p.term

/-- Reading one more operator and operand: `*` and `/` extend the term, `+` and
`-` close it. -/
def Pending.step (p : Pending) (t : Char × JsNum) : Pending :=
  if t.1 = '*' then { p with term := JsNum.mul p.term t.2 }
  else if t.1 = '/' then { p with term := JsNum.div p.term t.2 }
  else ⟨some (p.close, t.1), t.2⟩

/-- The value of `first op₁ x₁ op₂ x₂ …`: `*` and `/` bind tighter than `+` and
`-`, operators of one level associate to the left. -/
def evalChain (first : JsNum) (rest : List (Char × JsNum)) : JsNum :=
  (rest.foldl Pending.step ⟨none, first⟩).close

/-- ECMAScript evaluation of `return (e)` in strict mode for an expression of
the fragment (`none` outside it): the runs between the operators are the
numeric literals, a run that is not a literal makes the whole text a
SyntaxError, and the literals' Numbers are combined by `evalChain`. -/
def evalFragment (e : Str) : Option Outcome :=
  if inFragment e then
    let ops := e.filter isPunct
    match literalValues? (e.splitOnP isPunct) with
    | none => some .threw
    | some [] => some .threw
    | some (v :: vs) =>
      some (.number (evalChain (JsNum.ofRat v) (ops.zip (vs.map JsNum.ofRat))))
  else none

/-- ECMAScript semantics of `Function(src)()` on the texts `functionBody e`
with `e` in the expression fragment (`none` elsewhere). -/
def strictEval (src : Str) : Option Outcome :=
  match bodyExpr? src with
  | none => none
  | some e => evalFragment e

/-- An engine `run` (the behaviour of `Function(src)()`) follows ECMAScript on
the expression fragment. -/
def Conforms (run : Str → Outcome) : Prop :=
  ∀ src o, strictEval src = some o → run src = o

/-- A conforming engine: ECMAScript on the fragment, a thrown error elsewhere. -/
def refEngine (src : Str) : Outcome := (strictEval src).getD .threw

/-- `x.replace(…)` on a Number `x`: Numbers have no `replace` method, so the
call throws a TypeError (`none`). -/
def numberReplace (_x : JsNum) : Option Str := none

/-- `parseFloat(x.toFixed(10))`: below `10 ^ 21` in magnitude, the Number
nearest to `x` rounded to ten fractional digits, ties away from zero; from
`10 ^ 21` on `toFixed` is `String(x)` and the Number read back is `x`. -/
def parseFloatToFixed10 (x : JsNum) : JsNum :=
  match x with
  | .fin q =>
    if (10 : ℚ) ^ 21 ≤ |q| then x
    else JsNum.ofSignMag (decide (q < 0)) ((round (|q| * 10 ^ 10) : ℚ) / 10 ^ 10)
  | .negZero => .fin 0
  | y => y

/-- The text both `handleAnswer` and `computePreview` make of a Number:
`Number.isInteger(r) ? String(r) : String(parseFloat(r.toFixed(10)).replace(…))`,
`none` when it throws. -/
def resultText (r : JsNum) : Option Str :=
  if r.isInteger then some (numberToString r)
  else numberReplace (parseFloatToFixed10 r)

/-- `handleAnswer()` of `App.js`, with `run` the behaviour of `Function(src)()`. -/
def handleAnswer (run : Str → Outcome) (st : State) : State :=
  if st.input = [] then st
  else
    let expr := trimTrailing st.input
    if expr = [] then st
    else
      let jsExpr := toJsExpr expr
      match run (functionBody jsExpr) with
      | .number result =>
        if !result.isNaN && result.isFinite then
          match resultText result with
          | some text => ⟨st.input, text⟩
          | none => ⟨st.input, "Error".toList⟩
        else ⟨st.input, "Error".toList⟩
      | .other => ⟨st.input, "Error".toList⟩
      | .threw => ⟨st.input, "Error".toList⟩

/-- `computePreview(expr)` of `App.js`, with `run` the behaviour of `Function(src)()`. -/
def computePreview (run : Str → Outcome) (expr : Str) : Str :=
  if expr = [] then []
  else
    let e := trimTrailing expr
    if e = [] then []
    else
      let jsExpr := toJsExpr e
      match run (functionBody jsExpr) with
      | .number r =>
        if !r.isNaN && r.isFinite then
          match resultText r with
          | some text => text
          | none => []
        else []
      | .other => []
      | .threw => []

/-! ## Display -/

/-- The characters `\s` matches and `trim()` removes: the ECMAScript white
space and line terminator code points. -/
def isJsSpace (c : Char) : Bool :=
  decide (c.toNat ∈ [9, 10, 11, 12, 13, 32, 160, 5760, 8232, 8233, 8239, 8287, 12288, 65279]) ||
    (decide (8192 ≤ c.toNat) && decide (c.toNat ≤ 8202))

/-- `s.replace(/\s+/g, ' ')`: every maximal run of white space becomes one space. -/
def collapseSpaces : Str → Str
  | [] => []
  | c :: cs =>
    if isJsSpace c then
      match cs with
      | [] => [' ']
      | d :: _ => if isJsSpace d then collapseSpaces cs else ' ' :: collapseSpaces cs
    else c :: collapseSpaces cs

/-- `s.trim()`. -/
def trim (s : Str) : Str :=
  ((s.dropWhile isJsSpace).reverse.dropWhile isJsSpace).reverse

/-- `formatForDisplay(expr)` of `App.js`: `'0'` for the empty string; otherwise
`*` becomes ` X `, then `/` becomes ` ÷ `, then each of `+ - X ÷` gets a space
on either side, white space is collapsed and the ends are trimmed. -/
def formatForDisplay (expr : Str) : Str :=
  if expr = [] then ['0']
  else
    let s1 := expr.flatMap (fun c => if c = '*' then [' ', 'X', ' '] else [c])
    let s2 := s1.flatMap (fun c => if c = '/' then [' ', '÷', ' '] else [c])
    let s3 := s2.flatMap (fun c =>
      if c = '+' ∨ c = '-' ∨ c = 'X' ∨ c = '÷' then [' ', c, ' '] else [c])
    trim (collapseSpaces s3)

/-- `displayResult` of the render: the committed result if there is one, else the preview. -/
def displayResult (run : Str → Outcome) (st : State) : Str :=
  if st.result ≠ [] then st.result else computePreview run st.input

/-- The text of the formula line of the render. -/
def formulaLine (run : Str → Outcome) (st : State) : Str :=
  if st.input = [] then ['0']
  else formatForDisplay st.input ++ (if displayResult run st ≠ [] then [' ', '='] else [])

/-- The text of the result line of the render. -/
def resultLine (run : Str → Outcome) (st : State) : Str :=
  if displayResult run st = [] then (if st.input = [] then ['0'] else [])
  else displayResult run st

end Calc
namespace Calc

/-! ## Strings -/

theorem sliceLast_snoc (b : Str) (c : Char) : sliceLast (b ++ [c]) = [c] := by
  simp [sliceLast]

theorem sliceInit_snoc (b : Str) (c : Char) : sliceInit (b ++ [c]) = b := by
  simp [sliceInit]

theorem sliceLast_nil : sliceLast [] = [] := rfl

theorem isOperator_nil : isOperator [] = false := by decide

theorem isOpChar_iff (c : Char) :
    isOpChar c = true ↔ c = '/' ∨ c = '-' ∨ c = 'X' ∨ c = '÷' ∨ c = '*' ∨ c = '+' := by
  simp [isOpChar, isOperator]

theorem notOpClass_eq (c : Char) : notOpClass c = !isOpChar c := by
  by_cases h : isOpChar c = true
  · rcases (isOpChar_iff c).1 h with h' | h' | h' | h' | h' | h' <;> subst h' <;> decide
  · have h2 := h
    rw [isOpChar_iff] at h2
    push_neg at h2
    obtain ⟨h1, h2, h3, h4, h5, h6⟩ := h2
    simp [notOpClass, h1, h2, h3, h4, h5, h6, h]

theorem isOperator_singleton_of (op : Str) (h : isOperator op = true) :
    ∃ c, op = [c] ∧ isOpChar c = true := by
  simp only [isOperator, decide_eq_true_eq, List.mem_cons, List.mem_singleton,
    List.not_mem_nil, or_false] at h
  rcases h with h | h | h | h | h | h <;> subst h <;> exact ⟨_, rfl, by decide⟩

theorem digitLabel_not_operator (d : Fin 10) : isOperator (digitLabel d) = false := by
  revert d; decide

theorem digitLabel_ne_dot (d : Fin 10) : digitLabel d ≠ ['.'] := by
  revert d; decide

theorem digitLabel_eq (d : Fin 10) : ∃ c, digitLabel d = [c] ∧ isOpChar c = false ∧ c ≠ '.' := by
  refine ⟨Nat.digitChar d.val, rfl, ?_, ?_⟩ <;> revert d <;> decide

theorem startsWithOperator_snoc (b : Str) (c : Char) :
    startsWithOperator (b ++ [c]) = if b = [] then isOpChar c else startsWithOperator b := by
  cases b <;> simp [startsWithOperator]

theorem hasAdjacentOperators_snoc (b : Str) (c : Char) :
    hasAdjacentOperators (b ++ [c]) =
      (hasAdjacentOperators b || (isOperator (sliceLast b) && isOpChar c)) := by
  induction b with
  | nil => simp [hasAdjacentOperators, sliceLast, isOperator]
  | cons a t ih =>
    cases t with
    | nil => simp [hasAdjacentOperators, sliceLast, isOpChar]
    | cons a2 t2 =>
      have h1 : sliceLast (a :: a2 :: t2) = sliceLast (a2 :: t2) := by
        simp [sliceLast]
      rw [h1]
      have e : (a :: a2 :: t2) ++ [c] = a :: ((a2 :: t2) ++ [c]) := rfl
      rw [e]
      have e2 : (a2 :: t2) ++ [c] = a2 :: (t2 ++ [c]) := rfl
      rw [e2] at ih ⊢
      rw [hasAdjacentOperators, ih, hasAdjacentOperators, Bool.or_assoc]

theorem operatorsOK_nil : OperatorsOK [] := ⟨rfl, rfl⟩

theorem operatorsOK_of_snoc (b : Str) (c : Char) (h : OperatorsOK (b ++ [c])) : OperatorsOK b := by
  obtain ⟨h1, h2⟩ := h
  rw [startsWithOperator_snoc] at h1
  rw [hasAdjacentOperators_snoc] at h2
  constructor
  · by_cases hb : b = []
    · subst hb; rfl
    · simpa [hb] using h1
  · simp only [Bool.or_eq_false_iff] at h2
    exact h2.1

theorem operatorsOK_snoc_plain (b : Str) (c : Char) (h : OperatorsOK b) (hc : isOpChar c = false) :
    OperatorsOK (b ++ [c]) := by
  obtain ⟨h1, h2⟩ := h
  constructor
  · rw [startsWithOperator_snoc]; split <;> assumption
  · rw [hasAdjacentOperators_snoc, h2, hc]; simp

theorem operatorsOK_snoc_op (b : Str) (c : Char) (h : OperatorsOK b) (hb : b ≠ [])
    (hl : isOperator (sliceLast b) = false) : OperatorsOK (b ++ [c]) := by
  obtain ⟨h1, h2⟩ := h
  constructor
  · rw [startsWithOperator_snoc]; simp [hb, h1]
  · rw [hasAdjacentOperators_snoc, h2, hl]; simp

theorem operatorsOK_sliceInit (b : Str) (h : OperatorsOK b) : OperatorsOK (sliceInit b) := by
  rcases List.eq_nil_or_concat b with hb | ⟨L, a, hb⟩
  · subst hb; exact operatorsOK_nil
  · subst hb
    rw [show L.concat a = L ++ [a] by simp] at h ⊢
    rw [sliceInit_snoc]; exact operatorsOK_of_snoc L a h

theorem append_operatorsOK (val : Str) (st : State)
    (hval : isOperator val = true ∨ val = ['.'] ∨ ∃ c, val = [c] ∧ isOpChar c = false)
    (h : OperatorsOK st.input) : OperatorsOK (append val st).input := by
  unfold append
  by_cases hop : isOperator val = true
  · obtain ⟨c, rfl, hc⟩ := isOperator_singleton_of val hop
    simp only [hop, if_true]
    by_cases hb : st.input = []
    · simp [hb, operatorsOK_nil]
    · simp only [hb, if_false]
      by_cases hl : isOperator (sliceLast st.input) = true
      · simp only [hl, if_true]
        rcases List.eq_nil_or_concat st.input with hb' | ⟨L, a, hb'⟩
        · exact absurd hb' hb
        · rw [show L.concat a = L ++ [a] by simp] at hb'
          rw [hb'] at h hl ⊢
          rw [sliceInit_snoc]
          rw [sliceLast_snoc] at hl
          have hL := operatorsOK_of_snoc L a h
          have hLne : L ≠ [] := by
            rintro rfl
            have := h.1
            simp [startsWithOperator, isOpChar, hl] at this
          have h2 := h.2
          rw [hasAdjacentOperators_snoc] at h2
          simp only [Bool.or_eq_false_iff, Bool.and_eq_false_iff] at h2
          have hLl : isOperator (sliceLast L) = false := by
            rcases h2.2 with h3 | h3
            · exact h3
            · simp [isOpChar, hl] at h3
          exact operatorsOK_snoc_op L c hL hLne hLl
      · simp only [hl]
        exact operatorsOK_snoc_op _ c h hb (by simpa using hl)
  · simp only [hop]
    by_cases hdot : val = ['.']
    · subst hdot
      simp only [if_true, Bool.false_eq_true, if_false]
      split
      · exact h
      · split
        · have e : st.input ++ ['0', '.'] = (st.input ++ ['0']) ++ ['.'] := by simp
          rw [e]
          exact operatorsOK_snoc_plain _ _ (operatorsOK_snoc_plain _ _ h (by decide)) (by decide)
        · exact operatorsOK_snoc_plain _ _ h (by decide)
    · simp only [hdot, if_false, Bool.false_eq_true]
      rcases hval with h1 | h1 | ⟨c, rfl, hc⟩
      · exact absurd h1 hop
      · exact absurd h1 hdot
      · exact operatorsOK_snoc_plain _ _ h hc

theorem handleDelete_operatorsOK (st : State) (h : OperatorsOK st.input) :
    OperatorsOK (handleDelete st).input := by
  unfold handleDelete
  simp only
  split
  · exact operatorsOK_sliceInit _ h
  · exact operatorsOK_nil

theorem pressEdit_operatorsOK (st : State) (k : EditKey) (h : OperatorsOK st.input) :
    OperatorsOK (pressEdit st k).input := by
  cases k with
  | digit d =>
    obtain ⟨c, hc, hc2, _⟩ := digitLabel_eq d
    exact append_operatorsOK _ st (Or.inr (Or.inr ⟨c, hc, hc2⟩)) h
  | dot => exact append_operatorsOK _ st (Or.inr (Or.inl rfl)) h
  | op o => exact append_operatorsOK _ st (Or.inl (by cases o <;> decide)) h
  | delete => exact handleDelete_operatorsOK st h

theorem pressAll_operatorsOK (keys : List EditKey) :
    ∀ st : State, OperatorsOK st.input → OperatorsOK (pressAll st keys).input := by
  induction keys with
  | nil => intro st h; exact h
  | cons k ks ih =>
    intro st h
    exact ih (pressEdit st k) (pressEdit_operatorsOK st k h)

/-- C1: starting from the empty buffer, after every finite sequence of digit,
decimal-point, operator (`/ - X + * ÷`) and Delete presses the buffer does not
start with an operator character and has no two adjacent operator characters. -/
theorem buffer_never_starts_with_or_doubles_operator (keys : List EditKey) :
    startsWithOperator (pressAll initial keys).input = false ∧
      hasAdjacentOperators (pressAll initial keys).input = false :=
  pressAll_operatorsOK keys initial operatorsOK_nil

/-! ## Number segments -/

theorem currentNumber_of_all (b : Str) (h : b.all notOpClass = true) : currentNumber b = b := by
  cases b with
  | nil => rfl
  | cons c cs => simp only [currentNumber, h, if_true]

theorem currentNumber_all (b : Str) : (currentNumber b).all notOpClass = true := by
  induction b with
  | nil => rfl
  | cons c cs ih =>
    simp only [currentNumber]
    split
    · assumption
    · exact ih

/-- The segments of a buffer end with the text `currentNumber` finds, and one
more character either extends that last segment or opens a new, empty one. -/
theorem segments_snoc (b : Str) :
    ∃ front : List Str, segments b = front ++ [currentNumber b] ∧
      (front = [] ↔ b.all notOpClass = true) ∧
      ∀ a : Char, segments (b ++ [a]) =
        if isOpChar a then front ++ [currentNumber b, []] else front ++ [currentNumber b ++ [a]] := by
  induction b with
  | nil =>
    refine ⟨[], by simp [segments, currentNumber, List.splitOnP_nil], by simp, ?_⟩
    intro a
    by_cases ha : isOpChar a = true
    · simp [segments, currentNumber, List.splitOnP_cons, List.splitOnP_nil, ha]
    · simp [segments, currentNumber, List.splitOnP_cons, List.splitOnP_nil, ha]
  | cons c cs ih =>
    obtain ⟨front, h1, h2, h3⟩ := ih
    by_cases hc : isOpChar c = true
    · have hn : notOpClass c = false := by rw [notOpClass_eq, hc]; rfl
      have hcur : currentNumber (c :: cs) = currentNumber cs := by
        simp [currentNumber, hn]
      refine ⟨[] :: front, ?_, ?_, ?_⟩
      · simp only [segments] at h1 ⊢
        rw [List.splitOnP_cons, if_pos hc, h1, hcur]; rfl
      · simp [hn]
      · intro a
        have := h3 a
        simp only [segments] at this ⊢
        rw [List.cons_append, List.splitOnP_cons, if_pos hc, this, hcur]
        split <;> rfl
    · have hn : notOpClass c = true := by rw [notOpClass_eq]; simpa using hc
      by_cases hall : cs.all notOpClass = true
      · have hf : front = [] := h2.2 hall
        subst hf
        have hcs : currentNumber cs = cs := currentNumber_of_all cs hall
        have hcur : currentNumber (c :: cs) = c :: cs := by
          apply currentNumber_of_all
          simp only [List.all_cons, hn, hall, Bool.and_self]
        refine ⟨[], ?_, ?_, ?_⟩
        · simp only [segments] at h1 ⊢
          rw [List.splitOnP_cons, if_neg hc, h1, hcur, hcs]; rfl
        · simp only [List.all_cons, hn, hall, Bool.and_self]
        · intro a
          have := h3 a
          simp only [segments] at this ⊢
          rw [List.cons_append, List.splitOnP_cons, if_neg hc, this, hcur, hcs]
          split <;> rfl
      · have hf : front ≠ [] := fun h => hall (h2.1 h)
        obtain ⟨f0, fs, rfl⟩ := List.exists_cons_of_ne_nil hf
        have hcur : currentNumber (c :: cs) = currentNumber cs := by
          simp only [currentNumber, List.all_cons, hn, Bool.true_and, hall, if_false]
          simp [hall]
        refine ⟨(c :: f0) :: fs, ?_, ?_, ?_⟩
        · simp only [segments] at h1 ⊢
          rw [List.splitOnP_cons, if_neg hc, h1, hcur]; rfl
        · simp only [List.all_cons, hn, Bool.true_and, hall]
          simp
        · intro a
          have := h3 a
          simp only [segments] at this ⊢
          rw [List.cons_append, List.splitOnP_cons, if_neg hc, this, hcur]
          split <;> rfl

theorem dotsOK_iff (b : Str) : DotsOK b ↔ ∀ seg ∈ segments b, seg.count '.' ≤ 1 := Iff.rfl

theorem dotsOK_nil : DotsOK [] := by
  intro seg h
  simp [List.splitOnP_nil] at h
  subst h; simp

theorem dotsOK_of_snoc (b : Str) (c : Char) (h : DotsOK (b ++ [c])) : DotsOK b := by
  obtain ⟨front, h1, _, h3⟩ := segments_snoc b
  rw [dotsOK_iff] at h ⊢
  rw [h3 c] at h
  rw [h1]
  intro seg hseg
  rw [List.mem_append, List.mem_singleton] at hseg
  rcases hseg with hs | hs
  · apply h; split <;> simp [hs]
  · subst hs
    by_cases hc : isOpChar c = true
    · apply h; simp [hc]
    · have := h (currentNumber b ++ [c]) (by simp [hc])
      rw [List.count_append] at this
      omega

theorem dotsOK_snoc_op (b : Str) (c : Char) (h : DotsOK b) (hc : isOpChar c = true) :
    DotsOK (b ++ [c]) := by
  obtain ⟨front, h1, _, h3⟩ := segments_snoc b
  rw [dotsOK_iff] at h ⊢
  rw [h3 c, if_pos hc]
  rw [h1] at h
  intro seg hseg
  simp only [List.mem_append, List.mem_cons, List.mem_singleton, List.not_mem_nil, or_false] at hseg
  rcases hseg with hs | hs | hs
  · exact h seg (by simp [hs])
  · exact h seg (by simp [hs])
  · subst hs; simp

theorem dotsOK_snoc_plain (b : Str) (c : Char) (h : DotsOK b) (hc : isOpChar c = false)
    (hd : c = '.' → '.' ∉ currentNumber b) : DotsOK (b ++ [c]) := by
  obtain ⟨front, h1, _, h3⟩ := segments_snoc b
  rw [dotsOK_iff] at h ⊢
  rw [h3 c, if_neg (by simp [hc])]
  rw [h1] at h
  intro seg hseg
  simp only [List.mem_append, List.mem_singleton] at hseg
  rcases hseg with hs | hs
  · exact h seg (by simp [hs])
  · subst hs
    rw [List.count_append]
    by_cases hcd : c = '.'
    · have := List.count_eq_zero_of_not_mem (hd hcd)
      subst hcd
      simp [this]
    · have h0 : List.count '.' [c] = 0 := by
        simp [List.count_singleton, hcd]
      have := h (currentNumber b) (by simp)
      omega

theorem currentNumber_snoc_plain (b : Str) (c : Char) (hc : isOpChar c = false) :
    currentNumber (b ++ [c]) = currentNumber b ++ [c] := by
  obtain ⟨front, h1, _, h3⟩ := segments_snoc b
  obtain ⟨front2, g1, _, _⟩ := segments_snoc (b ++ [c])
  rw [h3 c, if_neg (by simp [hc])] at g1
  have := List.append_inj_right' g1 (by simp)
  simpa using this.symm

theorem dotsOK_sliceInit (b : Str) (h : DotsOK b) : DotsOK (sliceInit b) := by
  rcases List.eq_nil_or_concat b with hb | ⟨L, a, hb⟩
  · subst hb; exact dotsOK_nil
  · subst hb
    rw [show L.concat a = L ++ [a] by simp] at h ⊢
    rw [sliceInit_snoc]; exact dotsOK_of_snoc L a h

theorem append_dotsOK (val : Str) (st : State)
    (hval : isOperator val = true ∨ val = ['.'] ∨ ∃ c, val = [c] ∧ isOpChar c = false ∧ c ≠ '.')
    (h : DotsOK st.input) : DotsOK (append val st).input := by
  unfold append
  by_cases hop : isOperator val = true
  · obtain ⟨c, rfl, hc⟩ := isOperator_singleton_of val hop
    simp only [hop, if_true]
    by_cases hb : st.input = []
    · simp [hb, dotsOK_nil]
    · simp only [hb, if_false]
      split
      · exact dotsOK_snoc_op _ c (dotsOK_sliceInit _ h) hc
      · exact dotsOK_snoc_op _ c h hc
  · simp only [hop]
    by_cases hdot : val = ['.']
    · subst hdot
      simp only [if_true, Bool.false_eq_true, if_false]
      split
      · exact h
      · rename_i hnot
        split
        · rename_i hcur
          have e : st.input ++ ['0', '.'] = (st.input ++ ['0']) ++ ['.'] := by simp
          rw [e]
          refine dotsOK_snoc_plain _ _ (dotsOK_snoc_plain _ _ h (by decide) (fun e => absurd e (by decide))) (by decide) ?_
          intro _
          rw [currentNumber_snoc_plain _ _ (by decide), hcur]
          decide
        · exact dotsOK_snoc_plain _ _ h (by decide) (fun _ => hnot)
    · simp only [hdot, if_false, Bool.false_eq_true]
      rcases hval with h1 | h1 | ⟨c, rfl, hc, hcd⟩
      · exact absurd h1 hop
      · exact absurd h1 hdot
      · exact dotsOK_snoc_plain _ _ h hc (fun e => absurd e hcd)

theorem handleDelete_dotsOK (st : State) (h : DotsOK st.input) :
    DotsOK (handleDelete st).input := by
  unfold handleDelete
  simp only
  split
  · exact dotsOK_sliceInit _ h
  · exact dotsOK_nil

theorem pressEdit_dotsOK (st : State) (k : EditKey) (h : DotsOK st.input) :
    DotsOK (pressEdit st k).input := by
  cases k with
  | digit d => exact append_dotsOK _ st (Or.inr (Or.inr (digitLabel_eq d))) h
  | dot => exact append_dotsOK _ st (Or.inr (Or.inl rfl)) h
  | op o => exact append_dotsOK _ st (Or.inl (by cases o <;> decide)) h
  | delete => exact handleDelete_dotsOK st h

theorem pressAll_dotsOK (keys : List EditKey) :
    ∀ st : State, DotsOK st.input → DotsOK (pressAll st keys).input := by
  induction keys with
  | nil => intro st h; exact h
  | cons k ks ih =>
    intro st h
    exact ih (pressEdit st k) (pressEdit_dotsOK st k h)

/-- C2: in every buffer reachable from the empty buffer by digit,
decimal-point, operator and Delete presses, each number segment (maximal run
of non-operator characters) contains at most one `.` character. -/
theorem segments_have_at_most_one_dot (keys : List EditKey) :
    ∀ seg ∈ segments (pressAll initial keys).input, seg.count '.' ≤ 1 :=
  pressAll_dotsOK keys initial dotsOK_nil

theorem segments_have_at_most_one_dot_witness :
    ['1', '.', '5'] ∈ segments (pressAll initial
        [.digit 1, .dot, .dot, .digit 5, .op .plus, .dot, .digit 2]).input ∧
      List.count '.' ['1', '.', '5'] ≤ 1 :=
  ⟨by decide, segments_have_at_most_one_dot
    [.digit 1, .dot, .dot, .digit 5, .op .plus, .dot, .digit 2] ['1', '.', '5'] (by decide)⟩

/-! ## `append` -/

/-- C8: appending an operator token `op` leaves the empty buffer unchanged,
replaces the last character when that is an operator, and is appended
otherwise; in particular `-` after `5+` gives `5-` and `+` after `5+` gives `5+`. -/
theorem append_operator_cases (op : Str) (hop : isOperator op = true) (b : Str) (c : Char)
    (r : Str) :
    (append op ⟨[], r⟩).input = [] ∧
      (isOperator [c] = true → (append op ⟨b ++ [c], r⟩).input = b ++ op) ∧
      (isOperator [c] = false → (append op ⟨b ++ [c], r⟩).input = b ++ [c] ++ op) ∧
      (append ['-'] ⟨['5', '+'], r⟩).input = ['5', '-'] ∧
      (append ['+'] ⟨['5', '+'], r⟩).input = ['5', '+'] := by
  refine ⟨?_, ?_, ?_, ?_, ?_⟩
  · simp [append, hop]
  · intro hc
    simp [append, hop, sliceLast_snoc, sliceInit_snoc, hc]
  · intro hc
    simp [append, hop, sliceLast_snoc, hc]
  · simp [append, isOperator, sliceLast, sliceInit]
  · simp [append, isOperator, sliceLast, sliceInit]

theorem append_operator_cases_witness :
    isOperator ['-'] = true ∧
      (append ['-'] ⟨[], ['7']⟩).input = [] ∧
      (isOperator ['+'] = true → (append ['-'] ⟨['5'] ++ ['+'], ['7']⟩).input = ['5'] ++ ['-']) ∧
      (isOperator ['+'] = false →
        (append ['-'] ⟨['5'] ++ ['+'], ['7']⟩).input = ['5'] ++ ['+'] ++ ['-']) ∧
      (append ['-'] ⟨['5', '+'], ['7']⟩).input = ['5', '-'] ∧
      (append ['+'] ⟨['5', '+'], ['7']⟩).input = ['5', '+'] :=
  ⟨by decide, append_operator_cases ['-'] (by decide) ['5'] '+' ['7']⟩

theorem currentNumber_append (p seg : Str) (hp : p = [] ∨ isOperator (sliceLast p) = true)
    (hseg : ∀ c ∈ seg, isOpChar c = false) : currentNumber (p ++ seg) = seg := by
  have hall : seg.all notOpClass = true := by
    rw [List.all_eq_true]
    intro c hc
    rw [notOpClass_eq, hseg c hc]; rfl
  induction p with
  | nil => exact currentNumber_of_all seg hall
  | cons a t ih =>
    have hne : ¬ ((a :: t) ++ seg).all notOpClass = true := by
      rcases hp with hp | hp
      · exact absurd hp (by simp)
      · rcases List.eq_nil_or_concat (a :: t) with h0 | ⟨L, o, h0⟩
        · exact absurd h0 (by simp)
        · rw [show L.concat o = L ++ [o] by simp] at h0
          rw [h0, sliceLast_snoc] at hp
          rw [h0]
          intro hcon
          rw [List.all_eq_true] at hcon
          have := hcon o (by simp)
          rw [notOpClass_eq] at this
          have hp' : isOpChar o = true := hp
          rw [hp'] at this
          exact absurd this (by decide)
    have hrec : currentNumber ((a :: t) ++ seg) = currentNumber (t ++ seg) := by
      rw [List.cons_append] at hne ⊢
      rw [currentNumber, if_neg hne]
    rw [hrec]
    apply ih
    rcases hp with hp | hp
    · exact absurd hp (by simp)
    · cases t with
      | nil => exact Or.inl rfl
      | cons a2 t2 =>
        right
        have : sliceLast (a :: a2 :: t2) = sliceLast (a2 :: t2) := by simp [sliceLast]
        rwa [this] at hp

/-- C9: appending `.` to a buffer `p ++ seg`, where `seg` is its longest
operator-free suffix (`p` is empty or ends in an operator), leaves the buffer
unchanged when `seg` contains `.`, appends `0.` when `seg` is empty, and
appends `.` otherwise; in particular `5+` becomes `5+0.` and the empty buffer `0.`. -/
theorem append_decimal_cases (p seg r : Str) (hp : p = [] ∨ isOperator (sliceLast p) = true)
    (hseg : ∀ c ∈ seg, isOpChar c = false) :
    (append ['.'] ⟨p ++ seg, r⟩).input =
        (if '.' ∈ seg then p ++ seg
         else if seg = [] then p ++ seg ++ ['0', '.']
         else p ++ seg ++ ['.']) ∧
      (append ['.'] ⟨['5', '+'], r⟩).input = ['5', '+', '0', '.'] ∧
      (append ['.'] ⟨[], r⟩).input = ['0', '.'] := by
  refine ⟨?_, ?_, ?_⟩
  · have hcur := currentNumber_append p seg hp hseg
    have h1 : isOperator ['.'] = false := by decide
    unfold append
    simp only [h1, Bool.false_eq_true, if_false, if_true, hcur]
    by_cases hd : '.' ∈ seg
    · simp [hd]
    · by_cases he : seg = []
      · simp [he]
      · simp [hd, he]
  · simp [append, isOperator, currentNumber, notOpClass]
  · simp [append, isOperator, currentNumber]

theorem append_decimal_cases_witness :
    (['5', '+'] = [] ∨ isOperator (sliceLast ['5', '+']) = true) ∧
      (∀ c ∈ ['1', '2'], isOpChar c = false) ∧
      (append ['.'] ⟨['5', '+'] ++ ['1', '2'], []⟩).input =
        (if '.' ∈ ['1', '2'] then ['5', '+'] ++ ['1', '2']
         else if ['1', '2'] = [] then ['5', '+'] ++ ['1', '2'] ++ ['0', '.']
         else ['5', '+'] ++ ['1', '2'] ++ ['.']) :=
  ⟨by decide, by decide,
    (append_decimal_cases ['5', '+'] ['1', '2'] [] (by decide) (by decide)).1⟩

/-- C7, as the code has it: for every state, one with a committed result
included, and every digit `d`, `append(d)` discards the committed result and
the new buffer is the old buffer with `d` appended. -/
theorem append_digit_extends_buffer (b r : Str) (d : Fin 10) :
    append (digitLabel d) ⟨b, r⟩ = ⟨b ++ digitLabel d, []⟩ := by
  have h1 := digitLabel_not_operator d
  have h2 := digitLabel_ne_dot d
  unfold append
  simp only [h1, Bool.false_eq_true, if_false, h2]
  by_cases hr : r = []
  · simp [hr]
  · simp [hr]

/-- C7 fails as stated: pressing Answer on the buffer `5` commits the result
`5`, and the digit `3` pressed next yields the buffer `53`, not the fresh entry `3`. -/
theorem append_digit_after_answer_not_fresh :
    (handleAnswer refEngine ⟨['5'], []⟩).result = ['5'] ∧
      append (digitLabel 3) (handleAnswer refEngine ⟨['5'], []⟩) = ⟨['5', '3'], []⟩ ∧
      (append (digitLabel 3) (handleAnswer refEngine ⟨['5'], []⟩)).input ≠ digitLabel 3 := by
  decide!

/-! ## Evaluation: trailing operators, errors -/

theorem trimLoop_append (fuel : Nat) :
    ∀ (b t : Str), (b = [] ∨ isOperator (sliceLast b) = false) →
      (∀ c ∈ t, isOpChar c = true) → t.length ≤ fuel → trimLoop fuel (b ++ t) = b := by
  induction fuel with
  | zero =>
    intro b t _ _ hlen
    have : t = [] := List.length_eq_zero.mp (Nat.le_zero.mp hlen)
    subst this
    simp [trimLoop]
  | succ fuel ih =>
    intro b t hb ht hlen
    rcases List.eq_nil_or_concat t with h0 | ⟨L, o, h0⟩
    · subst h0
      rw [List.append_nil, trimLoop]
      rcases hb with hb | hb
      · subst hb; simp
      · simp [hb]
    · rw [show L.concat o = L ++ [o] by simp] at h0
      subst h0
      have ho : isOperator [o] = true := ht o (by simp)
      have hL : ∀ c ∈ L, isOpChar c = true := fun c hc => ht c (by simp [hc])
      have hlen' : L.length ≤ fuel := by
        simp only [List.length_append, List.length_singleton] at hlen
        omega
      rw [← List.append_assoc, trimLoop, sliceLast_snoc, sliceInit_snoc, ho]
      simp only [List.length_append, List.length_singleton, gt_iff_lt, Nat.lt_add_one_iff,
        Nat.zero_le, decide_True, Bool.and_self, if_true]
      exact ih b L hb hL hlen'

/-- The trailing-operator loop removes exactly a trailing block of operators. -/
theorem trimTrailing_append (b t : Str) (hb : b = [] ∨ isOperator (sliceLast b) = false)
    (ht : ∀ c ∈ t, isOpChar c = true) : trimTrailing (b ++ t) = b :=
  trimLoop_append _ b t hb ht (by simp)

theorem trimTrailing_self (b : Str) (hb : b = [] ∨ isOperator (sliceLast b) = false) :
    trimTrailing b = b := by
  have := trimTrailing_append b [] hb (by simp)
  simpa using this

theorem trimTrailing_nil : trimTrailing [] = [] := rfl

/-- The committed result of `handleAnswer` depends on the buffer only through
its trimmed text. -/
theorem handleAnswer_result_congr (run : Str → Outcome) (b1 b2 r : Str) (h1 : b1 ≠ [])
    (h2 : b2 ≠ []) (h : trimTrailing b1 = trimTrailing b2) :
    (handleAnswer run ⟨b1, r⟩).result = (handleAnswer run ⟨b2, r⟩).result := by
  unfold handleAnswer
  simp only [h1, h2, if_false, h]
  by_cases he : trimTrailing b2 = []
  · simp [he]
  · simp only [he, if_false]
    cases run (functionBody (toJsExpr (trimTrailing b2))) with
    | threw => rfl
    | other => rfl
    | number x =>
      simp only
      by_cases hx : (!x.isNaN && x.isFinite) = true
      · simp only [hx, if_true]
        cases resultText x <;> rfl
      · simp only [hx, if_false]
        rfl

theorem computePreview_congr (run : Str → Outcome) (b1 b2 : Str) (h1 : b1 ≠ [])
    (h2 : b2 ≠ []) (h : trimTrailing b1 = trimTrailing b2) :
    computePreview run b1 = computePreview run b2 := by
  unfold computePreview
  simp only [h1, h2, if_false, h]

/-- C6: trailing operators are ignored by evaluation: for a non-empty buffer
`b` that does not end in an operator and a string `t` of operator characters,
Answer on `b ++ t` commits the same result as Answer on `b`, and the preview
of `b ++ t` is the preview of `b`. -/
theorem trailing_operators_ignored (run : Str → Outcome) (b t r : Str) (hb : b ≠ [])
    (hlast : isOperator (sliceLast b) = false) (ht : ∀ c ∈ t, isOpChar c = true) :
    (handleAnswer run ⟨b ++ t, r⟩).result = (handleAnswer run ⟨b, r⟩).result ∧
      computePreview run (b ++ t) = computePreview run b := by
  have e1 : trimTrailing (b ++ t) = trimTrailing b := by
    rw [trimTrailing_append b t (Or.inr hlast) ht, trimTrailing_self b (Or.inr hlast)]
  have hne : b ++ t ≠ [] := by simp [hb]
  exact ⟨handleAnswer_result_congr run _ _ r hne hb e1, computePreview_congr run _ _ hne hb e1⟩

theorem trailing_operators_ignored_witness :
    ['5'] ≠ [] ∧ isOperator (sliceLast ['5']) = false ∧ (∀ c ∈ ['+'], isOpChar c = true) ∧
      ((handleAnswer refEngine ⟨['5'] ++ ['+'], []⟩).result =
          (handleAnswer refEngine ⟨['5'], []⟩).result ∧
        computePreview refEngine (['5'] ++ ['+']) = computePreview refEngine ['5']) ∧
      (handleAnswer refEngine ⟨['5', '+'], []⟩).result = ['5'] ∧
      (handleAnswer refEngine ⟨['5'], []⟩).result = ['5'] :=
  ⟨by decide, by decide, by decide,
    trailing_operators_ignored refEngine ['5'] ['+'] [] (by decide) (by decide) (by decide),
    by decide!, by decide!⟩

theorem refEngine_conforms : Conforms refEngine := by
  intro src o h
  simp [refEngine, h]

/-- Whatever finite Number that is not an integer the engine returns, the
formatting expression throws, and `handleAnswer` commits `Error`. -/
theorem answer_noninteger_is_error (run : Str → Outcome) (b r : Str) (x : JsNum)
    (hne : trimTrailing b ≠ [])
    (hrun : run (functionBody (toJsExpr (trimTrailing b))) = .number x)
    (hx : x.isInteger = false) : handleAnswer run ⟨b, r⟩ = ⟨b, "Error".toList⟩ := by
  have hb : b ≠ [] := by
    rintro rfl; exact hne rfl
  unfold handleAnswer
  simp only [hb, hne, if_false, hrun, resultText, hx, numberReplace]
  split <;> rfl

/-- C3 fails on the code: the buffer `1/3` evaluates to the Number nearest to
one third, a finite non-integer, and Answer commits `Error` rather than a text
starting with `0.3333333333`; the preview is empty. -/
theorem answer_one_third_is_error :
    strictEval (functionBody (toJsExpr ['1', '/', '3'])) =
        some (.number (.fin (6004799503160661 / 2 ^ 54))) ∧
      handleAnswer refEngine ⟨['1', '/', '3'], []⟩ = ⟨['1', '/', '3'], "Error".toList⟩ ∧
      computePreview refEngine ['1', '/', '3'] = [] := by
  decide!

/-- C5: whenever evaluating the trimmed buffer yields a Number that is not
finite (an infinity or NaN), Answer commits exactly `Error` and leaves the
buffer unchanged; `5/0` evaluates to `+Infinity` and `0/0` to `NaN`. -/
theorem answer_nonfinite_is_error (run : Str → Outcome) (b r : Str) (x : JsNum)
    (hne : trimTrailing b ≠ [])
    (hrun : run (functionBody (toJsExpr (trimTrailing b))) = .number x)
    (hx : x.isFinite = false) :
    handleAnswer run ⟨b, r⟩ = ⟨b, "Error".toList⟩ ∧
      strictEval (functionBody (toJsExpr ['5', '/', '0'])) = some (.number (.inf false)) ∧
      strictEval (functionBody (toJsExpr ['0', '/', '0'])) = some (.number .nan) := by
  have hb : b ≠ [] := by
    rintro rfl; exact hne rfl
  refine ⟨?_, by decide!, by decide!⟩
  unfold handleAnswer
  simp only [hb, hne, if_false, hrun, hx, Bool.and_false, Bool.false_eq_true]

theorem answer_nonfinite_is_error_witness :
    (trimTrailing ['5', '/', '0'] ≠ [] ∧
      refEngine (functionBody (toJsExpr (trimTrailing ['5', '/', '0']))) = .number (.inf false) ∧
      JsNum.isFinite (.inf false) = false ∧
      handleAnswer refEngine ⟨['5', '/', '0'], ['7']⟩ = ⟨['5', '/', '0'], "Error".toList⟩) ∧
    (trimTrailing ['0', '/', '0', '+'] ≠ [] ∧
      refEngine (functionBody (toJsExpr (trimTrailing ['0', '/', '0', '+']))) = .number .nan ∧
      JsNum.isFinite .nan = false ∧
      handleAnswer refEngine ⟨['0', '/', '0', '+'], []⟩ =
        ⟨['0', '/', '0', '+'], "Error".toList⟩) :=
  ⟨⟨by decide, by decide!, by decide,
      (answer_nonfinite_is_error refEngine ['5', '/', '0'] ['7'] (.inf false)
        (by decide) (by decide!) (by decide)).1⟩,
    ⟨by decide, by decide!, by decide,
      (answer_nonfinite_is_error refEngine ['0', '/', '0', '+'] [] .nan
        (by decide) (by decide!) (by decide)).1⟩⟩

/-- The trailing-operator loop always runs to its exit: the text it returns is
empty or does not end in an operator. -/
theorem trimTrailing_exit (e : Str) :
    trimTrailing e = [] ∨ isOperator (sliceLast (trimTrailing e)) = false := by
  have key : ∃ b t : Str, e = b ++ t ∧ (b = [] ∨ isOperator (sliceLast b) = false) ∧
      ∀ c ∈ t, isOpChar c = true := by
    induction e using List.reverseRecOn with
    | nil => exact ⟨[], [], rfl, Or.inl rfl, by simp⟩
    | append_singleton l a ih =>
      obtain ⟨b, t, he, hb, ht⟩ := ih
      by_cases ha : isOpChar a = true
      · refine ⟨b, t ++ [a], by rw [he, List.append_assoc], hb, ?_⟩
        intro c hc
        rcases List.mem_append.mp hc with h | h
        · exact ht c h
        · rw [List.mem_singleton] at h; subst h; exact ha
      · refine ⟨l ++ [a], [], by simp, Or.inr ?_, by simp⟩
        rw [sliceLast_snoc]
        simpa [isOpChar] using ha
  obtain ⟨b, t, he, hb, ht⟩ := key
  rw [he, trimTrailing_append b t hb ht]
  exact hb

/-! ## Exact arithmetic on integers below `2 ^ 53` -/

theorem bitLenAux_spec (fuel : Nat) :
    ∀ n : Nat, n ≤ fuel →
      n < 2 ^ bitLenAux fuel n ∧ (n ≠ 0 → 2 ^ (bitLenAux fuel n - 1) ≤ n) := by
  induction fuel with
  | zero =>
    intro n hn
    have : n = 0 := Nat.le_zero.mp hn
    subst this
    simp [bitLenAux]
  | succ fuel ih =>
    intro n hn
    by_cases h0 : n = 0
    · subst h0; simp [bitLenAux]
    · have hhalf : n / 2 ≤ fuel := by omega
      obtain ⟨h1, h2⟩ := ih (n / 2) hhalf
      simp only [bitLenAux, h0, if_false, Nat.add_sub_cancel]
      constructor
      · rw [pow_succ]; omega
      · intro _
        by_cases hz : n / 2 = 0
        · have hk : bitLenAux fuel (n / 2) = 0 := by
            rw [hz]; cases fuel <;> simp [bitLenAux]
          rw [hk]; simp; omega
        · have h3 := h2 hz
          have hk : bitLenAux fuel (n / 2) ≠ 0 := by
            intro hk
            rw [hk] at h1
            simp at h1
            exact hz h1
          obtain ⟨k, hk'⟩ := Nat.exists_eq_succ_of_ne_zero hk
          rw [hk'] at h3 ⊢
          simp only [Nat.succ_sub_one] at h3
          rw [pow_succ]; omega

theorem bitLen_spec (n : Nat) (h : n ≠ 0) : 2 ^ (bitLen n - 1) ≤ n ∧ n < 2 ^ bitLen n :=
  ⟨(bitLenAux_spec n n le_rfl).2 h, (bitLenAux_spec n n le_rfl).1⟩

theorem bitLen_pos (n : Nat) (h : n ≠ 0) : 1 ≤ bitLen n := by
  by_contra hlt
  have h0 : bitLen n = 0 := by omega
  have := (bitLen_spec n h).2
  rw [h0] at this
  simp at this
  exact h this

theorem bitLen_le_of_lt (n k : Nat) (h : n ≠ 0) (hlt : n < 2 ^ k) : bitLen n ≤ k := by
  by_contra hgt
  have h1 := (bitLen_spec n h).1
  have : 2 ^ k ≤ 2 ^ (bitLen n - 1) := Nat.pow_le_pow_right (by norm_num) (by omega)
  omega

theorem roundHalfEven_one (n : Nat) : roundHalfEven n 1 = n := by
  simp [roundHalfEven, Nat.mod_one]

theorem binExp_one (v : Nat) (h : v ≠ 0) : binExp v 1 = (bitLen v : Int) - 1 := by
  have hb : bitLen 1 = 1 := by decide
  have hp := bitLen_pos v h
  have hs := (bitLen_spec v h).1
  unfold binExp
  rw [hb]
  have hk : (0 : Int) ≤ (bitLen v : Int) - ((1 : Nat) : Int) := by
    have : (1 : Int) ≤ (bitLen v : Int) := by exact_mod_cast hp
    simpa using this
  have ht : ((bitLen v : Int) - ((1 : Nat) : Int)).toNat = bitLen v - 1 := by
    omega
  simp only [hk, if_true, ht, one_mul, hs]
  simp

/-- A natural number below `2 ^ 53` is a Number: rounding leaves it as it is. -/
theorem roundMag_natCast (v : Nat) (h : v < 2 ^ 53) : roundMag (v : ℚ) = some (v : ℚ) := by
  by_cases h0 : v = 0
  · subst h0; simp [roundMag]
  · have hq : (v : ℚ) ≠ 0 := by exact_mod_cast h0
    have hp := bitLen_pos v h0
    have hle := bitLen_le_of_lt v 53 h0 h
    have hbig : ¬ ((2 : ℚ) ^ 1024 ≤ (v : ℚ)) := by
      have h1 : (v : ℚ) < 2 ^ 53 := by exact_mod_cast h
      have h2 : (2 : ℚ) ^ 53 ≤ 2 ^ 1024 := by norm_num
      intro hcon
      linarith
    unfold roundMag
    simp only [hq, if_false, Rat.num_natCast, Int.natAbs_ofNat, Rat.den_natCast,
      binExp_one v h0]
    have hmax : max ((bitLen v : Int) - 1) (-1022) = (bitLen v : Int) - 1 := by
      apply max_eq_left; omega
    rw [hmax]
    by_cases hs : (0 : Int) ≤ (bitLen v : Int) - 1 - 52
    · have ht : ((bitLen v : Int) - 1 - 52).toNat = 0 := by omega
      simp only [hs, if_true, ht, pow_zero, mul_one, roundHalfEven_one, hbig, if_false]
    · have hpow : ((2 ^ (-((bitLen v : Int) - 1 - 52)).toNat : Nat) : ℚ) ≠ 0 := by
        exact_mod_cast (pow_ne_zero _ (by norm_num : (2 : Nat) ≠ 0))
      have hr : ((roundHalfEven (v * 2 ^ (-((bitLen v : Int) - 1 - 52)).toNat) 1 : Nat) : ℚ) /
          ((2 ^ (-((bitLen v : Int) - 1 - 52)).toNat : Nat) : ℚ) = (v : ℚ) := by
        rw [roundHalfEven_one, Nat.cast_mul, mul_div_assoc, div_self hpow, mul_one]
      simp only [hs, if_false, hr, hbig]

namespace JsNum

/-- An integer below `2 ^ 53` in magnitude is a Number. -/
theorem ofRat_intCast (z : Int) (h : z.natAbs < 2 ^ 53) : ofRat (z : ℚ) = fin (z : ℚ) := by
  have habs : |(z : ℚ)| = ((z.natAbs : Nat) : ℚ) := by
    rw [Nat.cast_natAbs, Int.cast_abs]
  unfold ofRat ofSignMag
  rw [habs, roundMag_natCast _ h]
  by_cases h0 : z = 0
  · subst h0; simp
  · have hn : ((z.natAbs : Nat) : ℚ) ≠ 0 := by
      exact_mod_cast Int.natAbs_ne_zero.mpr h0
    simp only [hn, if_false]
    by_cases hneg : z < 0
    · have h1 : ((z : ℚ) < 0) := by exact_mod_cast hneg
      simp only [h1, decide_True, if_true]
      congr 1
      rw [← habs, abs_of_neg h1, neg_neg]
    · have h1 : ¬ ((z : ℚ) < 0) := by
        intro hcon; exact hneg (by exact_mod_cast hcon)
      simp only [h1, decide_False, Bool.false_eq_true, if_false]
      congr 1
      rw [← habs, abs_of_nonneg (not_lt.mp h1)]

theorem ofRat_natCast (n : Nat) (h : n < 2 ^ 53) : ofRat (n : ℚ) = fin (n : ℚ) := by
  have := ofRat_intCast (n : Int) (by simpa using h)
  simpa using this

theorem add_intCast (a b : Int) (h : (a + b).natAbs < 2 ^ 53) :
    add (fin (a : ℚ)) (fin (b : ℚ)) = fin ((a + b : Int) : ℚ) := by
  have := ofRat_intCast (a + b) h
  simp only [add]
  rw [← this]; push_cast; rfl

theorem sub_intCast (a b : Int) (h : (a - b).natAbs < 2 ^ 53) :
    sub (fin (a : ℚ)) (fin (b : ℚ)) = fin ((a - b : Int) : ℚ) := by
  unfold sub neg
  by_cases hb : b = 0
  · subst hb; simp [add]
  · have hq : (b : ℚ) ≠ 0 := by exact_mod_cast hb
    simp only [hq, if_false]
    have := add_intCast a (-b) (by simpa [sub_eq_add_neg] using h)
    simp only [Int.cast_neg] at this
    rw [this]
    congr 1

theorem mul_natCast (a b : Nat) (h : a * b < 2 ^ 53) :
    mul (fin (a : ℚ)) (fin (b : ℚ)) = fin ((a * b : Nat) : ℚ) := by
  have ha : ¬ ((a : ℚ) < 0) := not_lt.mpr (Nat.cast_nonneg a)
  have hb : ¬ ((b : ℚ) < 0) := not_lt.mpr (Nat.cast_nonneg b)
  have hab : |(a : ℚ)| * |(b : ℚ)| = ((a * b : Nat) : ℚ) := by
    rw [abs_of_nonneg (Nat.cast_nonneg a), abs_of_nonneg (Nat.cast_nonneg b)]; push_cast; rfl
  simp only [mul, value?, isNeg, ha, hb, decide_False, bne_self_eq_false, hab]
  unfold ofSignMag
  rw [roundMag_natCast _ h]
  by_cases h0 : ((a * b : Nat) : ℚ) = 0
  · simp [h0]
  · simp [h0]

theorem div_natCast_exact (a b c : Nat) (hb : b ≠ 0) (hab : a = c * b) (h : c < 2 ^ 53) :
    div (fin (a : ℚ)) (fin (b : ℚ)) = fin (c : ℚ) := by
  have ha : ¬ ((a : ℚ) < 0) := not_lt.mpr (Nat.cast_nonneg a)
  have hb' : ¬ ((b : ℚ) < 0) := not_lt.mpr (Nat.cast_nonneg b)
  have hbq : (b : ℚ) ≠ 0 := by exact_mod_cast hb
  have hq : |(a : ℚ)| / |(b : ℚ)| = (c : ℚ) := by
    rw [abs_of_nonneg (Nat.cast_nonneg a), abs_of_nonneg (Nat.cast_nonneg b), hab]
    push_cast
    field_simp
  simp only [div, value?, isNeg, ha, hb', decide_False, bne_self_eq_false, hbq, if_false, hq]
  unfold ofSignMag
  rw [roundMag_natCast _ h]
  by_cases h0 : (c : ℚ) = 0
  · simp [h0]
  · simp [h0]

end JsNum

/-! ## Decimal digits -/

theorem toDigitsCore_eq (fuel : Nat) :
    ∀ (n : Nat) (ds : Str), n < fuel →
      Nat.toDigitsCore 10 fuel n ds = Nat.toDigitsCore 10 (n + 1) n [] ++ ds := by
  induction fuel using Nat.strong_induction_on with
  | _ fuel ih =>
    intro n ds hn
    cases fuel with
    | zero => exact absurd hn (Nat.not_lt_zero _)
    | succ fuel =>
      rw [Nat.toDigitsCore, Nat.toDigitsCore]
      by_cases h0 : n / 10 = 0
      · simp [h0]
      · simp only [h0, if_false]
        have h1 : n / 10 < fuel := by omega
        have h2 : n / 10 < n := by omega
        rw [ih fuel (Nat.lt_succ_self _) (n / 10) _ h1]
        rw [ih n (by omega) (n / 10) [Nat.digitChar (n % 10)] h2]
        simp

theorem decimal_eq (n : Nat) :
    decimal n = if n < 10 then [Nat.digitChar n]
      else decimal (n / 10) ++ [Nat.digitChar (n % 10)] := by
  unfold decimal Nat.toDigits
  rw [Nat.toDigitsCore]
  by_cases h : n < 10
  · have h0 : n / 10 = 0 := by omega
    have h1 : n % 10 = n := by omega
    simp [h, h0, h1]
  · have h0 : n / 10 ≠ 0 := by omega
    simp only [h0, if_false, h]
    rw [toDigitsCore_eq n (n / 10) _ (by omega)]

theorem decimal_of_lt (n : Nat) (h : n < 10) : decimal n = [Nat.digitChar n] := by
  rw [decimal_eq, if_pos h]

theorem decimal_of_ge (n : Nat) (h : 10 ≤ n) :
    decimal n = decimal (n / 10) ++ [Nat.digitChar (n % 10)] := by
  rw [decimal_eq, if_neg (by omega)]

theorem digitChar_isDigit (d : Nat) (h : d < 10) : (Nat.digitChar d).isDigit = true := by
  interval_cases d <;> decide

theorem digitChar_toNat (d : Nat) (h : d < 10) : (Nat.digitChar d).toNat - 48 = d := by
  interval_cases d <;> decide

theorem digitChar_eq_zero (d : Nat) (h : d < 10) (h0 : Nat.digitChar d = '0') : d = 0 := by
  interval_cases d <;> first | rfl | exact absurd h0 (by decide)

theorem decimal_all_digits (n : Nat) : ∀ c ∈ decimal n, c.isDigit = true := by
  induction n using Nat.strong_induction_on with
  | _ n ih =>
    intro c hc
    by_cases h : n < 10
    · rw [decimal_of_lt n h, List.mem_singleton] at hc
      subst hc; exact digitChar_isDigit n h
    · rw [decimal_of_ge n (by omega), List.mem_append, List.mem_singleton] at hc
      rcases hc with hc | hc
      · exact ih (n / 10) (by omega) c hc
      · subst hc; exact digitChar_isDigit _ (Nat.mod_lt _ (by norm_num))

theorem decimal_ne_nil (n : Nat) : decimal n ≠ [] := by
  rw [decimal_eq]; split <;> simp

theorem decimal_head (n : Nat) (h : 0 < n) : (decimal n).head? ≠ some '0' := by
  induction n using Nat.strong_induction_on with
  | _ n ih =>
    by_cases h10 : n < 10
    · rw [decimal_of_lt n h10]
      simp only [List.head?_cons, ne_eq, Option.some.injEq]
      intro hcon
      have := digitChar_eq_zero n h10 hcon
      omega
    · rw [decimal_of_ge n (by omega)]
      have hne := decimal_ne_nil (n / 10)
      rw [List.head?_append_of_ne_nil _ hne]
      exact ih (n / 10) (by omega) (by omega)

theorem digitsValue_snoc (ds : Str) (c : Char) :
    digitsValue (ds ++ [c]) = 10 * digitsValue ds + (c.toNat - 48) := by
  simp [digitsValue, List.foldl_append]

theorem digitsValue_decimal (n : Nat) : digitsValue (decimal n) = n := by
  induction n using Nat.strong_induction_on with
  | _ n ih =>
    by_cases h10 : n < 10
    · rw [decimal_of_lt n h10]
      simp only [digitsValue, List.foldl_cons, List.foldl_nil, mul_zero, zero_add]
      exact digitChar_toNat n h10
    · rw [decimal_of_ge n (by omega), digitsValue_snoc, ih (n / 10) (by omega),
        digitChar_toNat _ (Nat.mod_lt _ (by norm_num))]
      omega

theorem decimal_length_bounds (n : Nat) :
    n < 10 ^ (decimal n).length ∧ (0 < n → 10 ^ ((decimal n).length - 1) ≤ n) := by
  induction n using Nat.strong_induction_on with
  | _ n ih =>
    by_cases h10 : n < 10
    · rw [decimal_of_lt n h10]
      simp only [List.length_singleton, pow_one, Nat.sub_self, pow_zero]
      exact ⟨h10, fun h => h⟩
    · rw [decimal_of_ge n (by omega)]
      obtain ⟨h1, h2⟩ := ih (n / 10) (by omega)
      have h3 := h2 (by omega)
      have hlen : 1 ≤ (decimal (n / 10)).length :=
        List.length_pos.mpr (decimal_ne_nil _)
      simp only [List.length_append, List.length_singleton, Nat.add_sub_cancel]
      constructor
      · rw [pow_succ]; omega
      · intro _
        obtain ⟨k, hk⟩ : ∃ k, (decimal (n / 10)).length = k + 1 := ⟨_, (Nat.sub_add_cancel hlen).symm⟩
        rw [hk] at h3 ⊢
        simp only [Nat.add_sub_cancel] at h3
        rw [pow_succ]; omega

theorem decimal_mul_ten (s : Nat) (h : 0 < s) : decimal (s * 10) = decimal s ++ ['0'] := by
  rw [decimal_of_ge (s * 10) (by omega)]
  have h1 : s * 10 / 10 = s := by omega
  have h2 : s * 10 % 10 = 0 := by omega
  rw [h1, h2]; rfl

theorem decimal_mul_pow (s j : Nat) (h : 0 < s) :
    decimal (s * 10 ^ j) = decimal s ++ List.replicate j '0' := by
  induction j with
  | zero => simp
  | succ j ih =>
    rw [pow_succ, ← mul_assoc, decimal_mul_ten _ (by positivity), ih, List.append_assoc]
    congr 1
    rw [List.replicate_succ']

theorem takeWhile_isDigit_decimal (n : Nat) (rest : Str)
    (h : rest.head?.all (fun c => !c.isDigit) = true) :
    (decimal n ++ rest).takeWhile Char.isDigit = decimal n ∧
      (decimal n ++ rest).dropWhile Char.isDigit = rest := by
  have hall := decimal_all_digits n
  have hrest : rest.takeWhile Char.isDigit = [] ∧ rest.dropWhile Char.isDigit = rest := by
    cases rest with
    | nil => simp
    | cons c cs =>
      have hc : c.isDigit = false := by simpa using h
      simp [List.takeWhile, List.dropWhile, hc]
  constructor
  · rw [List.takeWhile_append_of_pos hall, hrest.1, List.append_nil]
  · rw [List.dropWhile_append_of_pos hall, hrest.2]

/-- The decimal numeral of `n` is a strict-mode literal of value `n`. -/
theorem decimalLiteral_decimal (n : Nat) : decimalLiteral? (decimal n) = some (n : ℚ) := by
  have h := takeWhile_isDigit_decimal n [] (by simp)
  rw [List.append_nil] at h
  unfold decimalLiteral?
  simp only [h.1, h.2, digitsValue_decimal]
  have hleg : (decide (2 ≤ (decimal n).length) && (decimal n).head? == some '0') = false := by
    by_cases h0 : 0 < n
    · have := decimal_head n h0
      simp [this]
    · have : n = 0 := by omega
      subst this
      decide
  simp [hleg]

/-! ## `String(x)` for integers below `2 ^ 53` -/

theorem roundHalfEven_ge (n d : Nat) : n / d ≤ roundHalfEven n d := by
  unfold roundHalfEven
  simp only
  split_ifs <;> omega

/-- Rounding does not take a natural number from `2 ^ 53` on below `2 ^ 53`. -/
theorem roundMag_natCast_ge (w : Nat) (h : 2 ^ 53 ≤ w) (r : ℚ)
    (hr : roundMag (w : ℚ) = some r) : (2 : ℚ) ^ 53 ≤ r := by
  have h0 : w ≠ 0 := by
    have : 0 < 2 ^ 53 := by norm_num
    omega
  have hq : (w : ℚ) ≠ 0 := by exact_mod_cast h0
  have hspec := bitLen_spec w h0
  have hlen : 54 ≤ bitLen w := by
    by_contra hcon
    have : 2 ^ bitLen w ≤ 2 ^ 53 := Nat.pow_le_pow_right (by norm_num) (by omega)
    omega
  unfold roundMag at hr
  simp only [hq, if_false, Rat.num_natCast, Int.natAbs_ofNat, Rat.den_natCast,
    binExp_one w h0] at hr
  have hmax : max ((bitLen w : Int) - 1) (-1022) = (bitLen w : Int) - 1 := by
    apply max_eq_left; omega
  rw [hmax] at hr
  have hs : (0 : Int) ≤ (bitLen w : Int) - 1 - 52 := by omega
  have ht : ((bitLen w : Int) - 1 - 52).toNat = bitLen w - 53 := by omega
  simp only [hs, if_true, ht, one_mul] at hr
  split_ifs at hr with hbig
  simp only [Option.some.injEq] at hr
  rw [← hr]
  have h1 : 2 ^ 52 ≤ w / 2 ^ (bitLen w - 53) := by
    rw [Nat.le_div_iff_mul_le (by positivity), ← pow_add]
    have : 52 + (bitLen w - 53) = bitLen w - 1 := by omega
    rw [this]; exact hspec.1
  have h2 := roundHalfEven_ge w (2 ^ (bitLen w - 53))
  have h3 : 2 ^ 53 ≤ roundHalfEven w (2 ^ (bitLen w - 53)) * 2 ^ (bitLen w - 53) := by
    have h4 : 2 ^ 1 ≤ 2 ^ (bitLen w - 53) := Nat.pow_le_pow_right (by norm_num) (by omega)
    calc 2 ^ 53 = 2 ^ 52 * 2 ^ 1 := by norm_num
      _ ≤ roundHalfEven w (2 ^ (bitLen w - 53)) * 2 ^ (bitLen w - 53) :=
          Nat.mul_le_mul (le_trans h1 h2) h4
  exact_mod_cast h3

/-- A natural number that reads back as a Number below `2 ^ 53` is that Number. -/
theorem roundMag_natCast_eq (w v : Nat) (hv : v < 2 ^ 53)
    (h : roundMag (w : ℚ) = some (v : ℚ)) : w = v := by
  by_cases hw : w < 2 ^ 53
  · rw [roundMag_natCast w hw] at h
    simp only [Option.some.injEq] at h
    exact_mod_cast h
  · have := roundMag_natCast_ge w (by omega) _ h
    have h2 : (v : ℚ) < 2 ^ 53 := by exact_mod_cast hv
    linarith

theorem ite_some_eq {α : Type} (c : Prop) [Decidable c] (a b y : α)
    (h : (if c then some a else some b) = some y) : y = if c then a else b := by
  split_ifs at h ⊢ <;> simp only [Option.some.injEq] at h <;> exact h.symm

theorem significand_cases (v : ℚ) (n : Int) (k : Nat) (y : Nat × Int)
    (h : significand? v n k = some y) :
    ∃ s : Nat, roundMag ((s : ℚ) * (10 : ℚ) ^ (n - (k : Int))) = some v ∧
      y = (if s = 10 ^ k then (10 ^ (k - 1), n + 1) else (s, n)) := by
  unfold significand? at h
  simp only [] at h
  split at h
  · rename_i hboth
    simp only [Bool.and_eq_true, decide_eq_true_eq] at hboth
    split at h
    · exact ⟨_, hboth.1, ite_some_eq _ _ _ _ h⟩
    · split at h
      · exact ⟨_, hboth.2, ite_some_eq _ _ _ _ h⟩
      · split at h
        · exact ⟨_, hboth.1, ite_some_eq _ _ _ _ h⟩
        · exact ⟨_, hboth.2, ite_some_eq _ _ _ _ h⟩
  · split at h
    · rename_i hlo
      simp only [decide_eq_true_eq] at hlo
      exact ⟨_, hlo, ite_some_eq _ _ _ _ h⟩
    · split at h
      · rename_i hhi
        simp only [decide_eq_true_eq] at hhi
        exact ⟨_, hhi, ite_some_eq _ _ _ _ h⟩
      · exact absurd h (by simp)

theorem zpow_ten_sub (L k : Nat) (hk : k ≤ L) :
    (10 : ℚ) ^ ((L : Int) - (k : Int)) = ((10 ^ (L - k) : Nat) : ℚ) := by
  rw [← Nat.cast_sub hk, zpow_natCast]; push_cast; rfl

/-- For a natural number `v` below `2 ^ 53` with at most `L` digits, a
significand of `k ≤ L` digits writes `v` exactly. -/
theorem significand_nat (v L k : Nat) (hv : v < 2 ^ 53) (hL : v < 10 ^ L) (hk : k ≤ L)
    (y : Nat × Int) (h : significand? (v : ℚ) (L : Int) k = some y) :
    ∃ s : Nat, y = (s, (L : Int)) ∧ s * 10 ^ (L - k) = v := by
  obtain ⟨s, hs, hy⟩ := significand_cases _ _ _ _ h
  rw [zpow_ten_sub L k hk, ← Nat.cast_mul] at hs
  have hsv : s * 10 ^ (L - k) = v := roundMag_natCast_eq _ _ hv hs
  have hne : s ≠ 10 ^ k := by
    rintro rfl
    rw [← pow_add, Nat.add_sub_cancel' hk] at hsv
    omega
  rw [if_neg hne] at hy
  exact ⟨s, hy, hsv⟩

theorem significand_nat_full (v L : Nat) (hv : v < 2 ^ 53) :
    significand? (v : ℚ) (L : Int) L ≠ none := by
  have hx : (v : ℚ) / (10 : ℚ) ^ ((L : Int) - (L : Int)) = (v : ℚ) := by simp
  have hlo : ⌊(v : ℚ)⌋.toNat = v := by simp
  have hok : roundMag (((v : Nat) : ℚ) * (10 : ℚ) ^ ((L : Int) - (L : Int))) = some (v : ℚ) := by
    simp only [sub_self, zpow_zero, mul_one]
    exact roundMag_natCast v hv
  unfold significand?
  simp only [hx, hlo, hok, decide_True, Bool.true_and]
  split_ifs <;> simp

theorem shortestFrom_nat (v L : Nat) (hv : v < 2 ^ 53) (hL : v < 10 ^ L) (fuel : Nat) :
    ∀ k : Nat, k ≤ L → L < k + fuel →
      ∃ s k2 : Nat, shortestFrom (v : ℚ) (L : Int) fuel k = (s, (L : Int), k2) ∧ k2 ≤ L ∧
        s * 10 ^ (L - k2) = v := by
  induction fuel with
  | zero => intro k h1 h2; omega
  | succ fuel ih =>
    intro k h1 h2
    rw [shortestFrom]
    cases hsig : significand? (v : ℚ) (L : Int) k with
    | some y =>
      obtain ⟨s, hy, hs⟩ := significand_nat v L k hv hL h1 y hsig
      subst hy
      exact ⟨s, k, rfl, h1, hs⟩
    | none =>
      have hkL : k ≠ L := by
        rintro rfl
        exact significand_nat_full v k hv hsig
      exact ih (k + 1) (by omega) (by omega)

theorem decExp_natCast (v : Nat) (h : 0 < v) : decExp (v : ℚ) = ((decimal v).length : Int) := by
  have h1 : (1 : ℚ) ≤ (v : ℚ) := by exact_mod_cast h
  simp [decExp, h1]

/-- `String(v)` of a positive integer below `2 ^ 53` is its decimal numeral. -/
theorem positiveToString_natCast (v : Nat) (h0 : 0 < v) (hv : v < 2 ^ 53) :
    positiveToString (v : ℚ) = decimal v := by
  have hb := decimal_length_bounds v
  have hlen : (decimal v).length ≤ 16 := by
    by_contra hcon
    have h1 := hb.2 h0
    have h2 : 10 ^ 16 ≤ 10 ^ ((decimal v).length - 1) :=
      Nat.pow_le_pow_right (by norm_num) (by omega)
    have h3 : (2 : Nat) ^ 53 < 10 ^ 16 := by norm_num
    omega
  have hlen1 : 1 ≤ (decimal v).length := List.length_pos.mpr (decimal_ne_nil v)
  obtain ⟨s, k2, hsh, hk2, hs⟩ :=
    shortestFrom_nat v (decimal v).length hv hb.1 17 1 hlen1 (by omega)
  have hs0 : 0 < s := by
    rcases Nat.eq_zero_or_pos s with h | h
    · rw [h, zero_mul] at hs; omega
    · exact h
  unfold positiveToString
  rw [decExp_natCast v h0, hsh]
  have hc : ((k2 : Int) ≤ ((decimal v).length : Int)) ∧ (((decimal v).length : Int) ≤ 21) := by
    constructor
    · exact_mod_cast hk2
    · have : (decimal v).length ≤ 21 := by omega
      exact_mod_cast this
  simp only [hc, and_self, if_true]
  have ht : (((decimal v).length : Int) - (k2 : Int)).toNat = (decimal v).length - k2 := by
    omega
  rw [ht, ← decimal_mul_pow s _ hs0, hs]

/-- `String(x)` of an integer Number below `2 ^ 53` in magnitude: the decimal
numeral of its magnitude, after a `-` when it is negative. -/
theorem numberToString_intCast (z : Int) (h : z.natAbs < 2 ^ 53) :
    numberToString (.fin (z : ℚ)) =
      (if z < 0 then '-' :: decimal z.natAbs else decimal z.natAbs) := by
  unfold numberToString
  by_cases h0 : z = 0
  · subst h0; simp; decide
  · have hq : (z : ℚ) ≠ 0 := by exact_mod_cast h0
    have hpos : 0 < z.natAbs := Int.natAbs_pos.mpr h0
    simp only [hq, if_false]
    by_cases hneg : z < 0
    · have h1 : ((z : ℚ) < 0) := by exact_mod_cast hneg
      have h2 : -(z : ℚ) = ((z.natAbs : Nat) : ℚ) := by
        rw [Nat.cast_natAbs, Int.cast_abs, abs_of_neg h1]
      simp only [h1, hneg, if_true, h2, positiveToString_natCast _ hpos h]
    · have h1 : ¬ ((z : ℚ) < 0) := by
        intro hcon; exact hneg (by exact_mod_cast hcon)
      have h2 : (z : ℚ) = ((z.natAbs : Nat) : ℚ) := by
        rw [Nat.cast_natAbs, Int.cast_abs, abs_of_nonneg (not_lt.mp h1)]
      simp only [h1, hneg, if_false]
      rw [h2, positiveToString_natCast _ hpos h]

theorem numberToString_natCast (n : Nat) (h : n < 2 ^ 53) :
    numberToString (.fin (n : ℚ)) = decimal n := by
  have := numberToString_intCast (n : Int) (by simpa using h)
  simpa using this

/-! ## Evaluation of chains of numerals -/

theorem isDigit_not_punct (c : Char) (h : c.isDigit = true) : isPunct c = false := by
  by_contra hcon
  have hp : isPunct c = true := by simpa using hcon
  simp only [isPunct, Bool.or_eq_true, beq_iff_eq] at hp
  rcases hp with ((hp | hp) | hp) | hp <;> subst hp <;> exact absurd h (by decide)

theorem isDigit_toJs (c : Char) (h : c.isDigit = true) :
    (if c = 'X' then '*' else if c = '÷' then '/' else c) = c := by
  have h1 : c ≠ 'X' := by rintro rfl; exact absurd h (by decide)
  have h2 : c ≠ '÷' := by rintro rfl; exact absurd h (by decide)
  simp [h1, h2]

theorem isDigit_not_operator (c : Char) (h : c.isDigit = true) : isOperator [c] = false := by
  by_contra hcon
  have hp : isOpChar c = true := by simpa [isOpChar] using hcon
  rw [isOpChar_iff] at hp
  rcases hp with hp | hp | hp | hp | hp | hp <;> subst hp <;> exact absurd h (by decide)

theorem toJsExpr_append (x y : Str) : toJsExpr (x ++ y) = toJsExpr x ++ toJsExpr y := by
  simp [toJsExpr]

theorem toJsExpr_digits (ds : Str) (h : ∀ c ∈ ds, c.isDigit = true) : toJsExpr ds = ds := by
  unfold toJsExpr
  induction ds with
  | nil => rfl
  | cons c cs ih =>
    rw [List.map_cons, isDigit_toJs c (h c (by simp)), ih (fun x hx => h x (by simp [hx]))]

theorem toJsExpr_decimal (n : Nat) : toJsExpr (decimal n) = decimal n :=
  toJsExpr_digits _ (decimal_all_digits n)

theorem decimal_snoc (n : Nat) : ∃ init d, d < 10 ∧ decimal n = init ++ [Nat.digitChar d] := by
  by_cases h : n < 10
  · exact ⟨[], n, h, by rw [decimal_of_lt n h]; rfl⟩
  · exact ⟨decimal (n / 10), n % 10, Nat.mod_lt _ (by norm_num), decimal_of_ge n (by omega)⟩

theorem sliceLast_append_decimal (x : Str) (n : Nat) :
    isOperator (sliceLast (x ++ decimal n)) = false := by
  obtain ⟨init, d, hd, he⟩ := decimal_snoc n
  rw [he, ← List.append_assoc, sliceLast_snoc]
  exact isDigit_not_operator _ (digitChar_isDigit d hd)

theorem bodyExpr_functionBody (e : Str) : bodyExpr? (functionBody e) = some e := by
  unfold bodyExpr? functionBody
  have h1 : ("\"use strict\"; return (".toList).isPrefixOf
      ("\"use strict\"; return (".toList ++ e ++ [')']) = true := by
    rw [List.isPrefixOf_iff_prefix, List.append_assoc]
    exact List.prefix_append _ _
  have h2 : ("\"use strict\"; return (".toList ++ e ++ [')']).getLast? = some ')' :=
    List.getLast?_concat _
  simp only [h1, h2, and_self, if_true, Option.some.injEq]
  rw [List.append_assoc, List.drop_left]
  have h3 : ("\"use strict\"; return (".toList ++ (e ++ [')'])).length -
      ("\"use strict\"; return (".toList).length - 1 = e.length := by
    simp only [List.length_append, List.length_singleton]
    omega
  rw [h3, List.take_left]

theorem strictEval_functionBody (e : Str) : strictEval (functionBody e) = evalFragment e := by
  simp [strictEval, bodyExpr_functionBody]

theorem splitOnP_decimal_cons (n : Nat) (o : Char) (ho : isPunct o = true) (rest : Str) :
    (decimal n ++ o :: rest).splitOnP isPunct = decimal n :: rest.splitOnP isPunct :=
  List.splitOnP_first isPunct (decimal n)
    (fun c hc => by simp [isDigit_not_punct c (decimal_all_digits n c hc)]) o ho rest

theorem splitOnP_decimal (n : Nat) : (decimal n).splitOnP isPunct = [decimal n] :=
  List.splitOnP_eq_single isPunct (decimal n)
    (fun c hc => by simp [isDigit_not_punct c (decimal_all_digits n c hc)])

theorem filter_isPunct_decimal (n : Nat) : (decimal n).filter isPunct = [] := by
  rw [List.filter_eq_nil_iff]
  intro c hc
  simp [isDigit_not_punct c (decimal_all_digits n c hc)]

theorem all_source_decimal (n : Nat) :
    (decimal n).all (fun c => c.isDigit || c == '.' || isPunct c) = true := by
  rw [List.all_eq_true]
  intro c hc
  simp [decimal_all_digits n c hc]

theorem decimal_isEmpty (n : Nat) : (decimal n).isEmpty = false := by
  have := decimal_ne_nil n
  cases h : decimal n with
  | nil => exact absurd h this
  | cons c cs => rfl

theorem toJsExpr_plus : toJsExpr ['+'] = ['+'] := rfl

theorem toJsExpr_minus : toJsExpr ['-'] = ['-'] := rfl

theorem toJsExpr_times : toJsExpr ['X'] = ['*'] := rfl

theorem decimalInt_natCast (n : Nat) : decimalInt ((n : Nat) : Int) = decimal n := by
  simp [decimalInt]

/-- The text `a o₁ b o₂ c` of three decimal numerals and two operator
punctuators evaluates to the chain of the three Numbers. -/
theorem evalFragment_three (a b c : Nat) (o1 o2 : Char) (h1 : isPunct o1 = true)
    (h2 : isPunct o2 = true) :
    evalFragment (decimal a ++ o1 :: (decimal b ++ o2 :: decimal c)) =
      some (.number (evalChain (JsNum.ofRat a) [(o1, JsNum.ofRat b), (o2, JsNum.ofRat c)])) := by
  have hne := decimal_ne_nil
  have hfrag : inFragment (decimal a ++ o1 :: (decimal b ++ o2 :: decimal c)) = true := by
    unfold inFragment
    rw [splitOnP_decimal_cons a o1 h1, splitOnP_decimal_cons b o2 h2, splitOnP_decimal]
    simp only [List.all_append, List.all_cons, all_source_decimal, h1, h2, Bool.or_true,
      Bool.true_and, Bool.and_true, List.all_nil, decimal_isEmpty, Bool.not_false,
      Bool.and_self]
  have hops : (decimal a ++ o1 :: (decimal b ++ o2 :: decimal c)).filter isPunct = [o1, o2] := by
    simp [List.filter_append, List.filter_cons, filter_isPunct_decimal, h1, h2]
  unfold evalFragment
  rw [if_pos hfrag, hops, splitOnP_decimal_cons a o1 h1, splitOnP_decimal_cons b o2 h2,
    splitOnP_decimal]
  simp [literalValues?, decimalLiteral_decimal]

theorem evalFragment_one (a : Nat) :
    evalFragment (decimal a) = some (.number (JsNum.ofRat a)) := by
  have hfrag : inFragment (decimal a) = true := by
    unfold inFragment
    rw [splitOnP_decimal]
    simp [all_source_decimal, decimal_isEmpty]
  unfold evalFragment
  rw [if_pos hfrag, splitOnP_decimal, filter_isPunct_decimal]
  simp [literalValues?, decimalLiteral_decimal, evalChain, Pending.close]

theorem evalChain_add_mul (x y z : JsNum) :
    evalChain x [('+', y), ('*', z)] = JsNum.add x (JsNum.mul y z) := by
  simp [evalChain, Pending.step, Pending.close]

theorem evalChain_sub_sub (x y z : JsNum) :
    evalChain x [('-', y), ('-', z)] = JsNum.sub (JsNum.sub x y) z := by
  simp [evalChain, Pending.step, Pending.close]

/-- On a conforming engine, a buffer that ends in no operator and evaluates to
an integer below `2 ^ 53` in magnitude commits that integer's decimal numeral. -/
theorem handleAnswer_integer (run : Str → Outcome) (hrun : Conforms run) (b r : Str) (z : Int)
    (hz : z.natAbs < 2 ^ 53) (hb : b ≠ []) (hlast : isOperator (sliceLast b) = false)
    (hev : evalFragment (toJsExpr b) = some (.number (.fin (z : ℚ)))) :
    handleAnswer run ⟨b, r⟩ = ⟨b, decimalInt z⟩ := by
  have htrim : trimTrailing b = b := trimTrailing_self b (Or.inr hlast)
  have hr : run (functionBody (toJsExpr b)) = .number (.fin (z : ℚ)) :=
    hrun _ _ (by rw [strictEval_functionBody, hev])
  have hint : JsNum.isInteger (.fin (z : ℚ)) = true := by
    simp [JsNum.isInteger]
  unfold handleAnswer
  simp only [hb, htrim, if_false, hr, resultText, hint, if_true, JsNum.isNaN, JsNum.isFinite,
    Bool.not_false, Bool.and_self, numberToString_intCast z hz, decimalInt]

/-- C4: evaluation respects precedence and left associativity: for naturals
`a`, `b`, `c` below `2 ^ 53` written in decimal, Answer on `a+bXc` commits the
decimal numeral of `a + b * c` when that is below `2 ^ 53`, and Answer on
`a-b-c` commits the numeral of `(a - b) - c`, with a leading `-` when negative,
when that is below `2 ^ 53` in magnitude. -/
theorem answer_precedence_and_associativity (run : Str → Outcome) (hrun : Conforms run)
    (a b c : Nat) (r : Str) (ha : a < 2 ^ 53) (hb : b < 2 ^ 53) (hc : c < 2 ^ 53) :
    (a + b * c < 2 ^ 53 →
        handleAnswer run ⟨decimal a ++ ['+'] ++ decimal b ++ ['X'] ++ decimal c, r⟩ =
          ⟨decimal a ++ ['+'] ++ decimal b ++ ['X'] ++ decimal c, decimal (a + b * c)⟩) ∧
      (((a : Int) - (b : Int) - (c : Int)).natAbs < 2 ^ 53 →
        handleAnswer run ⟨decimal a ++ ['-'] ++ decimal b ++ ['-'] ++ decimal c, r⟩ =
          ⟨decimal a ++ ['-'] ++ decimal b ++ ['-'] ++ decimal c,
            decimalInt ((a : Int) - (b : Int) - (c : Int))⟩) := by
  constructor
  · intro hsum
    have hz : ((a + b * c : Nat) : Int).natAbs < 2 ^ 53 := by simpa using hsum
    have hmul : b * c < 2 ^ 53 := by omega
    have h := handleAnswer_integer run hrun
      (decimal a ++ ['+'] ++ decimal b ++ ['X'] ++ decimal c) r ((a + b * c : Nat) : Int) hz
      (by simp [decimal_ne_nil]) (sliceLast_append_decimal _ c) (by
        have e : toJsExpr (decimal a ++ ['+'] ++ decimal b ++ ['X'] ++ decimal c) =
            decimal a ++ '+' :: (decimal b ++ '*' :: decimal c) := by
          rw [toJsExpr_append, toJsExpr_append, toJsExpr_append, toJsExpr_append,
            toJsExpr_decimal, toJsExpr_decimal, toJsExpr_decimal, toJsExpr_plus, toJsExpr_times]
          simp
        rw [e, evalFragment_three a b c '+' '*' (by decide) (by decide), evalChain_add_mul,
          JsNum.ofRat_natCast a ha, JsNum.ofRat_natCast b hb, JsNum.ofRat_natCast c hc,
          JsNum.mul_natCast b c hmul]
        have := JsNum.add_intCast (a : Int) ((b * c : Nat) : Int) (by
          have : ((a : Int) + ((b * c : Nat) : Int)).natAbs = a + b * c := by
            rw [← Nat.cast_add, Int.natAbs_ofNat]
          omega)
        simp only [Int.cast_natCast] at this
        rw [this]
        push_cast
        rfl)
    rw [h, decimalInt_natCast]
  · intro hz
    have hab : ((a : Int) - (b : Int)).natAbs < 2 ^ 53 := by omega
    exact handleAnswer_integer run hrun
      (decimal a ++ ['-'] ++ decimal b ++ ['-'] ++ decimal c) r _ hz
      (by simp [decimal_ne_nil]) (sliceLast_append_decimal _ c) (by
        have e : toJsExpr (decimal a ++ ['-'] ++ decimal b ++ ['-'] ++ decimal c) =
            decimal a ++ '-' :: (decimal b ++ '-' :: decimal c) := by
          rw [toJsExpr_append, toJsExpr_append, toJsExpr_append, toJsExpr_append,
            toJsExpr_decimal, toJsExpr_decimal, toJsExpr_decimal, toJsExpr_minus]
          simp
        rw [e, evalFragment_three a b c '-' '-' (by decide) (by decide), evalChain_sub_sub,
          JsNum.ofRat_natCast a ha, JsNum.ofRat_natCast b hb, JsNum.ofRat_natCast c hc]
        have h1 := JsNum.sub_intCast (a : Int) (b : Int) hab
        simp only [Int.cast_natCast] at h1
        rw [h1]
        have h2 := JsNum.sub_intCast ((a : Int) - (b : Int)) (c : Int) hz
        simp only [Int.cast_natCast] at h2
        rw [h2])

theorem answer_precedence_and_associativity_witness :
    Conforms refEngine ∧ 2 < 2 ^ 53 ∧ 3 < 2 ^ 53 ∧ 4 < 2 ^ 53 ∧
      handleAnswer refEngine ⟨decimal 2 ++ ['+'] ++ decimal 3 ++ ['X'] ++ decimal 4, []⟩ =
        ⟨decimal 2 ++ ['+'] ++ decimal 3 ++ ['X'] ++ decimal 4, decimal (2 + 3 * 4)⟩ ∧
      handleAnswer refEngine ⟨decimal 2 ++ ['-'] ++ decimal 3 ++ ['-'] ++ decimal 4, []⟩ =
        ⟨decimal 2 ++ ['-'] ++ decimal 3 ++ ['-'] ++ decimal 4,
          decimalInt (((2 : Nat) : Int) - ((3 : Nat) : Int) - ((4 : Nat) : Int))⟩ ∧
      decimal 2 ++ ['+'] ++ decimal 3 ++ ['X'] ++ decimal 4 = ['2', '+', '3', 'X', '4'] ∧
      decimal (2 + 3 * 4) = ['1', '4'] ∧
      decimal 2 ++ ['-'] ++ decimal 3 ++ ['-'] ++ decimal 4 = ['2', '-', '3', '-', '4'] ∧
      decimalInt (((2 : Nat) : Int) - ((3 : Nat) : Int) - ((4 : Nat) : Int)) = ['-', '5'] :=
  ⟨refEngine_conforms, by norm_num, by norm_num, by norm_num,
    (answer_precedence_and_associativity refEngine refEngine_conforms 2 3 4 []
      (by norm_num) (by norm_num) (by norm_num)).1 (by norm_num),
    (answer_precedence_and_associativity refEngine refEngine_conforms 2 3 4 []
      (by norm_num) (by norm_num) (by norm_num)).2 (by decide),
    by decide, by decide, by decide, by decide⟩

/-! ## Percent -/

theorem isNumberText_decimal (n : Nat) : isNumberText (decimal n) = true := by
  have h := takeWhile_isDigit_decimal n [] (by simp)
  rw [List.append_nil] at h
  unfold isNumberText
  simp [h.1, h.2, decimal_isEmpty]

theorem isNumberText_chars (t : Str) (h : isNumberText t = true) :
    ∀ c ∈ t, c.isDigit = true ∨ c = '.' := by
  intro c hc
  unfold isNumberText at h
  rw [Bool.and_eq_true] at h
  rw [← List.takeWhile_append_dropWhile Char.isDigit t, List.mem_append] at hc
  rcases hc with hc | hc
  · exact Or.inl (List.mem_takeWhile_imp hc)
  · have h2 := h.2
    cases hd : List.dropWhile Char.isDigit t with
    | nil => rw [hd] at hc; exact absurd hc (by simp)
    | cons x xs =>
      rw [hd] at hc h2
      by_cases hx : x = '.'
      · subst hx
        simp only [List.all_eq_true] at h2
        rcases List.mem_cons.mp hc with h3 | h3
        · exact Or.inr h3
        · exact Or.inl (h2 c h3)
      · exfalso
        revert h2
        split
        · rename_i heq; exact absurd heq (by simp)
        · rename_i heq
          simp only [List.cons.injEq] at heq
          exact absurd heq.1 hx
        · simp

theorem isOpChar_not_number_char (c : Char) (h : isOpChar c = true) :
    ¬ (c.isDigit = true ∨ c = '.') := by
  rw [isOpChar_iff] at h
  rcases h with h | h | h | h | h | h <;> subst h <;> decide

theorem trailingNumber_append (p d : Str) (hp : p = [] ∨ isOperator (sliceLast p) = true)
    (hd : isNumberText d = true) : trailingNumber (p ++ d) = some d := by
  have hdne : d ≠ [] := by
    rintro rfl
    exact absurd hd (by decide)
  induction p with
  | nil =>
    obtain ⟨c, cs, rfl⟩ := List.exists_cons_of_ne_nil hdne
    simp [trailingNumber, hd]
  | cons a t ih =>
    have hne : isNumberText ((a :: t) ++ d) = false := by
      rcases hp with hp | hp
      · exact absurd hp (by simp)
      · rcases List.eq_nil_or_concat (a :: t) with h0 | ⟨L, o, h0⟩
        · exact absurd h0 (by simp)
        · rw [show L.concat o = L ++ [o] by simp] at h0
          rw [h0, sliceLast_snoc] at hp
          rw [h0]
          by_contra hcon
          have hcon2 : isNumberText (L ++ [o] ++ d) = true := by simpa using hcon
          exact isOpChar_not_number_char o hp (isNumberText_chars _ hcon2 o (by simp))
    have hrec : trailingNumber ((a :: t) ++ d) = trailingNumber (t ++ d) := by
      rw [List.cons_append] at hne ⊢
      rw [trailingNumber, hne]
      simp
    rw [hrec]
    apply ih
    rcases hp with hp | hp
    · exact absurd hp (by simp)
    · cases t with
      | nil => exact Or.inl rfl
      | cons a2 t2 =>
        right
        have : sliceLast (a :: a2 :: t2) = sliceLast (a2 :: t2) := by simp [sliceLast]
        rwa [this] at hp

theorem parseFloat_decimal (n : Nat) (h : n < 2 ^ 53) : parseFloat (decimal n) = .fin (n : ℚ) := by
  have ht := takeWhile_isDigit_decimal n [] (by simp)
  rw [List.append_nil] at ht
  unfold parseFloat
  simp only [ht.1, ht.2, decimal_ne_nil, if_false, digitsValue_decimal]
  exact JsNum.ofRat_natCast n h

/-- C10: percent divides only the trailing number by 100 and leaves what is
before it untouched: for a prefix `p` that is empty or ends in an operator and
a natural `k` with `100 * k < 2 ^ 53`, `handlePercent` on `p ++ decimal (100 * k)`
yields the buffer `p ++ decimal k` (and no committed result). -/
theorem percent_divides_trailing_number (p r : Str) (k : Nat)
    (hp : p = [] ∨ isOperator (sliceLast p) = true) (hk : 100 * k < 2 ^ 53) :
    handlePercent ⟨p ++ decimal (100 * k), r⟩ = ⟨p ++ decimal k, []⟩ := by
  have hk2 : k < 2 ^ 53 := by omega
  have h100 : JsNum.ofRat 100 = .fin ((100 : Nat) : ℚ) := by
    have := JsNum.ofRat_natCast 100 (by norm_num)
    simpa using this
  have hdiv : JsNum.div (.fin ((100 * k : Nat) : ℚ)) (.fin ((100 : Nat) : ℚ)) = .fin (k : ℚ) :=
    JsNum.div_natCast_exact (100 * k) 100 k (by norm_num) (by ring) hk2
  unfold handlePercent
  rw [trailingNumber_append p _ hp (isNumberText_decimal _)]
  simp only [parseFloat_decimal _ hk, h100, hdiv, numberToString_natCast k hk2,
    List.length_append, Nat.add_sub_cancel, List.take_left]

theorem percent_divides_trailing_number_witness :
    (['5', '+'] = [] ∨ isOperator (sliceLast ['5', '+']) = true) ∧ 100 * 2 < 2 ^ 53 ∧
      handlePercent ⟨['5', '+'] ++ decimal (100 * 2), ['7']⟩ = ⟨['5', '+'] ++ decimal 2, []⟩ ∧
      handlePercent ⟨[] ++ decimal (100 * 2), []⟩ = ⟨[] ++ decimal 2, []⟩ ∧
      ['5', '+'] ++ decimal (100 * 2) = ['5', '+', '2', '0', '0'] ∧
      ['5', '+'] ++ decimal 2 = ['5', '+', '2'] ∧
      ([] : Str) ++ decimal (100 * 2) = ['2', '0', '0'] ∧ ([] : Str) ++ decimal 2 = ['2'] :=
  ⟨by decide, by norm_num,
    percent_divides_trailing_number ['5', '+'] ['7'] 2 (by decide) (by norm_num),
    percent_divides_trailing_number [] [] 2 (Or.inl rfl) (by norm_num),
    by decide, by decide, by decide, by decide⟩

/-! ## Percent and Delete: the committed result; the display -/

theorem trailingNumber_some (b m : Str) (h : trailingNumber b = some m) :
    ∃ p, b = p ++ m ∧ isNumberText m = true := by
  induction b with
  | nil => exact absurd h (by simp [trailingNumber])
  | cons c cs ih =>
    rw [trailingNumber] at h
    split at h
    · rename_i hn
      simp only [Option.some.injEq] at h
      subst h
      exact ⟨[], rfl, hn⟩
    · obtain ⟨p, hp, hm⟩ := ih h
      exact ⟨c :: p, by rw [hp]; rfl, hm⟩

theorem isNumberText_ne_nil (m : Str) (h : isNumberText m = true) : m ≠ [] := by
  rintro rfl
  exact absurd h (by decide)

/-- A buffer that is empty or ends in an operator has no trailing number. -/
theorem trailingNumber_none (b : Str) (hb : b = [] ∨ isOperator (sliceLast b) = true) :
    trailingNumber b = none := by
  cases hm : trailingNumber b with
  | none => rfl
  | some m =>
    exfalso
    obtain ⟨p, hp, hnum⟩ := trailingNumber_some b m hm
    have hmne := isNumberText_ne_nil m hnum
    rcases List.eq_nil_or_concat m with h0 | ⟨L, o, h0⟩
    · exact hmne h0
    · rw [show L.concat o = L ++ [o] by simp] at h0
      have ho : o.isDigit = true ∨ o = '.' := isNumberText_chars m hnum o (by rw [h0]; simp)
      rcases hb with hb | hb
      · rw [hb] at hp
        have : p ++ m ≠ [] := by simp [hmne]
        exact this hp.symm
      · rw [hp, h0, ← List.append_assoc, sliceLast_snoc] at hb
        exact isOpChar_not_number_char o hb ho

/-- C11, as the code has it: `handlePercent` discards the committed result
whenever the buffer has a trailing number; when it has none, in particular
when the buffer is empty or ends in an operator, it leaves the whole state,
committed result included, as it was. -/
theorem percent_discards_result_on_match (b r : Str) :
    (∀ m, trailingNumber b = some m → (handlePercent ⟨b, r⟩).result = []) ∧
      (trailingNumber b = none → handlePercent ⟨b, r⟩ = ⟨b, r⟩) ∧
      (b = [] ∨ isOperator (sliceLast b) = true → handlePercent ⟨b, r⟩ = ⟨b, r⟩) := by
  refine ⟨?_, ?_, ?_⟩
  · intro m hm
    simp [handlePercent, hm]
  · intro hn
    simp [handlePercent, hn]
  · intro hb
    simp [handlePercent, trailingNumber_none b hb]

/-- C11 fails as stated: Answer on the buffer `5+` commits the result `5`, and
percent pressed next leaves both the buffer `5+` and the committed result `5`. -/
theorem percent_keeps_result_without_number :
    handleAnswer refEngine ⟨['5', '+'], []⟩ = ⟨['5', '+'], ['5']⟩ ∧
      handlePercent (handleAnswer refEngine ⟨['5', '+'], []⟩) = ⟨['5', '+'], ['5']⟩ ∧
      (handlePercent (handleAnswer refEngine ⟨['5', '+'], []⟩)).result ≠ [] := by
  decide!

/-- C12: Delete removes exactly the final character and clears the committed
result: it takes `(b ++ [c], r)` to `(b, '')` and `('', r)` to `('', '')`, and
after Delete on the empty buffer the formula line and the result line both
show `0`. -/
theorem delete_removes_last_and_clears_result (run : Str → Outcome) (b r : Str) (c : Char) :
    handleDelete ⟨b ++ [c], r⟩ = ⟨b, []⟩ ∧
      handleDelete ⟨[], r⟩ = ⟨[], []⟩ ∧
      formulaLine run (handleDelete ⟨[], r⟩) = ['0'] ∧
      resultLine run (handleDelete ⟨[], r⟩) = ['0'] := by
  refine ⟨?_, ?_, ?_, ?_⟩
  · simp [handleDelete, sliceInit_snoc]
  · simp [handleDelete]
  · simp [handleDelete, formulaLine]
  · simp [handleDelete, resultLine, displayResult, computePreview]

/-! ## Integer results, idempotence, preview -/

/-- Whatever the engine, a buffer whose trimmed text evaluates to an integer
below `2 ^ 53` in magnitude (a negative zero counts as `0`) commits that
integer's decimal numeral. -/
theorem handleAnswer_of_integer (run : Str → Outcome) (b r : Str) (x : JsNum) (z : Int)
    (hne : trimTrailing b ≠ [])
    (hrun : run (functionBody (toJsExpr (trimTrailing b))) = .number x)
    (hx : x.value? = some (z : ℚ))
    (hz : z.natAbs < 2 ^ 53) : handleAnswer run ⟨b, r⟩ = ⟨b, decimalInt z⟩ := by
  have hb : b ≠ [] := by
    rintro rfl; exact hne rfl
  cases x with
  | nan => exact absurd hx (by simp [JsNum.value?])
  | inf s => exact absurd hx (by simp [JsNum.value?])
  | negZero =>
    have h0 : z = 0 := by
      simp only [JsNum.value?, Option.some.injEq] at hx
      exact_mod_cast hx.symm
    subst h0
    unfold handleAnswer
    simp only [hb, hne, if_false, hrun, resultText, JsNum.isInteger, if_true, JsNum.isNaN,
      JsNum.isFinite, Bool.not_false, Bool.and_self, numberToString]
    rfl
  | fin q =>
    have hq : q = (z : ℚ) := by
      simpa [JsNum.value?] using hx
    subst hq
    have hint : JsNum.isInteger (.fin (z : ℚ)) = true := by
      simp [JsNum.isInteger]
    unfold handleAnswer
    simp only [hb, hne, if_false, hrun, resultText, hint, if_true, JsNum.isNaN, JsNum.isFinite,
      Bool.not_false, Bool.and_self, numberToString_intCast z hz, decimalInt]

theorem decimalInt_chars (z : Int) :
    decimalInt z = (if z < 0 then ['-'] else []) ++ decimal z.natAbs ∧
      ∀ c ∈ decimal z.natAbs, c.isDigit = true := by
  refine ⟨?_, decimal_all_digits _⟩
  unfold decimalInt
  split <;> rfl

/-- C13: integer results are rendered as plain integers: when the trimmed
buffer evaluates to a Number whose value is an integer `z` below `2 ^ 53` in
magnitude, Answer commits the decimal numeral of `z`, which is its digits
after a `-` when `z` is negative (no decimal point, no exponent); on an engine
that follows ECMAScript Answer on `2+2` gives `4` and Answer on `2.5X4` gives `10`. -/
theorem answer_integer_is_plain (run : Str → Outcome) (b r : Str) (x : JsNum) (z : Int)
    (hne : trimTrailing b ≠ [])
    (hrun : run (functionBody (toJsExpr (trimTrailing b))) = .number x)
    (hx : x.value? = some (z : ℚ))
    (hz : z.natAbs < 2 ^ 53) :
    handleAnswer run ⟨b, r⟩ = ⟨b, decimalInt z⟩ ∧
      decimalInt z = (if z < 0 then ['-'] else []) ++ decimal z.natAbs ∧
      (∀ c ∈ decimal z.natAbs, c.isDigit = true) ∧
      (Conforms run →
        handleAnswer run ⟨['2', '+', '2'], r⟩ = ⟨['2', '+', '2'], ['4']⟩ ∧
          handleAnswer run ⟨['2', '.', '5', 'X', '4'], r⟩ = ⟨['2', '.', '5', 'X', '4'], ['1', '0']⟩) := by
  refine ⟨handleAnswer_of_integer run b r x z hne hrun hx hz, (decimalInt_chars z).1,
    (decimalInt_chars z).2, ?_⟩
  intro hconf
  constructor
  · have h := handleAnswer_of_integer run ['2', '+', '2'] r (.fin 4) 4 (by decide)
      (hconf _ _ (by decide!)) (by decide!) (by decide)
    rw [h]
    congr 1
  · have h := handleAnswer_of_integer run ['2', '.', '5', 'X', '4'] r (.fin 10) 10 (by decide)
      (hconf _ _ (by decide!)) (by decide!) (by decide)
    rw [h]
    congr 1

theorem answer_integer_is_plain_witness :
    trimTrailing ['2', '+', '2'] ≠ [] ∧
      refEngine (functionBody (toJsExpr (trimTrailing ['2', '+', '2']))) = .number (.fin 4) ∧
      JsNum.value? (.fin 4) = some ((4 : Int) : ℚ) ∧
      (4 : Int).natAbs < 2 ^ 53 ∧
      handleAnswer refEngine ⟨['2', '+', '2'], []⟩ = ⟨['2', '+', '2'], decimalInt 4⟩ ∧
      decimalInt 4 = ['4'] ∧
      handleAnswer refEngine ⟨['2', '.', '5', 'X', '4'], []⟩ =
        ⟨['2', '.', '5', 'X', '4'], ['1', '0']⟩ :=
  ⟨by decide, by decide!, by decide!, by decide,
    (answer_integer_is_plain refEngine ['2', '+', '2'] [] (.fin 4) 4 (by decide) (by decide!)
      (by decide!) (by decide)).1,
    by decide,
    ((answer_integer_is_plain refEngine ['2', '+', '2'] [] (.fin 4) 4 (by decide) (by decide!)
      (by decide!) (by decide)).2.2.2 refEngine_conforms).2⟩

/-! ### Idempotence -/

theorem handleAnswer_input (run : Str → Outcome) (st : State) :
    (handleAnswer run st).input = st.input := by
  unfold handleAnswer
  split
  · rfl
  · simp only
    split
    · rfl
    · split
      · split
        · split <;> rfl
        · rfl
      · rfl
      · rfl

/-- The committed result `handleAnswer` sets does not depend on the result
that was committed before, once the trimmed buffer is not empty. -/
theorem handleAnswer_result_indep (run : Str → Outcome) (b r1 r2 : Str)
    (hne : trimTrailing b ≠ []) : handleAnswer run ⟨b, r1⟩ = handleAnswer run ⟨b, r2⟩ := by
  have hb : b ≠ [] := by
    rintro rfl; exact hne rfl
  unfold handleAnswer
  simp only [hb, hne, if_false]

/-- C14: evaluation is idempotent and does not touch the buffer: Answer leaves
the buffer as it is, Answer pressed twice gives the state Answer pressed once
gives, and the preview of the buffer is the same before and after Answer. -/
theorem answer_idempotent (run : Str → Outcome) (b r : Str) :
    (handleAnswer run ⟨b, r⟩).input = b ∧
      handleAnswer run (handleAnswer run ⟨b, r⟩) = handleAnswer run ⟨b, r⟩ ∧
      computePreview run (handleAnswer run ⟨b, r⟩).input = computePreview run b := by
  have hin := handleAnswer_input run ⟨b, r⟩
  refine ⟨hin, ?_, by rw [hin]⟩
  by_cases hne : trimTrailing b = []
  · have hsame : handleAnswer run ⟨b, r⟩ = ⟨b, r⟩ := by
      unfold handleAnswer
      by_cases hb : b = []
      · simp [hb]
      · simp [hb, hne]
    rw [hsame, hsame]
  · have e : handleAnswer run ⟨b, r⟩ = ⟨b, (handleAnswer run ⟨b, r⟩).result⟩ := by
      cases h : handleAnswer run ⟨b, r⟩ with
      | mk i res =>
        have : i = b := by rw [h] at hin; exact hin
        subst this; rfl
    rw [e]
    exact (handleAnswer_result_indep run b _ r hne).trans e

/-! ### Preview and committed answer -/

theorem head_digits_append (ds rest : Str) (hds : ∀ c ∈ ds, c.isDigit = true)
    (hrest : rest.head? ≠ some 'E') : (ds ++ rest).head? ≠ some 'E' := by
  cases ds with
  | nil => simpa using hrest
  | cons c cs =>
    simp only [List.cons_append, List.head?_cons, ne_eq, Option.some.injEq]
    rintro rfl
    exact absurd (hds 'E' (by simp)) (by decide)

theorem positiveToString_head (v : ℚ) : (positiveToString v).head? ≠ some 'E' := by
  unfold positiveToString
  rcases shortestFrom v (decExp v) 17 1 with ⟨s, n, k⟩
  simp only
  have hd := decimal_all_digits s
  have htake : ∀ m, ∀ c ∈ (decimal s).take m, c.isDigit = true :=
    fun m c hc => hd c (List.mem_of_mem_take hc)
  split
  · apply head_digits_append _ _ hd
    cases (n - (k : Int)).toNat <;> simp [List.replicate]
  · split
    · exact head_digits_append _ _ (htake _) (by simp)
    · split
      · simp
      · split
        · exact head_digits_append _ _ hd (by simp)
        · exact head_digits_append _ _ (htake _) (by simp)

/-- The text of a finite Number is never `Error`. -/
theorem numberToString_ne_error (x : JsNum) (hx : x.isFinite = true) :
    numberToString x ≠ "Error".toList := by
  have key : (numberToString x).head? ≠ some 'E' := by
    cases x with
    | nan => exact absurd hx (by decide)
    | inf s => exact absurd hx (by simp [JsNum.isFinite])
    | negZero => decide
    | fin q =>
      simp only [numberToString]
      split
      · decide
      · split
        · simp
        · exact positiveToString_head q
  intro hcon
  rw [hcon] at key
  exact key (by decide)

/-- C15: the live preview and the committed answer agree: for a buffer that is
not empty after its trailing operators are stripped, when Answer commits a
result other than `Error` the preview is that result, and when Answer commits
`Error` the preview is empty. -/
theorem preview_agrees_with_answer (run : Str → Outcome) (b r : Str)
    (hne : trimTrailing b ≠ []) :
    ((handleAnswer run ⟨b, r⟩).result ≠ "Error".toList →
        computePreview run b = (handleAnswer run ⟨b, r⟩).result) ∧
      ((handleAnswer run ⟨b, r⟩).result = "Error".toList → computePreview run b = []) := by
  have hb : b ≠ [] := by
    rintro rfl; exact hne rfl
  unfold handleAnswer computePreview
  simp only [hb, hne, if_false]
  cases hrun : run (functionBody (toJsExpr (trimTrailing b))) with
  | threw => simp
  | other => simp
  | number x =>
    simp only
    by_cases hok : (!x.isNaN && x.isFinite) = true
    · simp only [hok, if_true]
      cases htext : resultText x with
      | none => simp
      | some text =>
        simp only
        refine ⟨fun _ => by trivial, ?_⟩
        intro herr
        exfalso
        have hfin : x.isFinite = true := by
          simp only [Bool.and_eq_true] at hok
          exact hok.2
        unfold resultText at htext
        split at htext
        · simp only [Option.some.injEq] at htext
          exact numberToString_ne_error x hfin (htext.trans herr)
        · exact absurd htext (by simp [numberReplace])
    · simp [hok]

theorem preview_agrees_with_answer_witness :
    (trimTrailing ['2', '+', '2', '+'] ≠ [] ∧
      ((handleAnswer refEngine ⟨['2', '+', '2', '+'], []⟩).result ≠ "Error".toList →
          computePreview refEngine ['2', '+', '2', '+'] =
            (handleAnswer refEngine ⟨['2', '+', '2', '+'], []⟩).result) ∧
      (handleAnswer refEngine ⟨['2', '+', '2', '+'], []⟩).result = ['4'] ∧
      computePreview refEngine ['2', '+', '2', '+'] = ['4']) ∧
    (trimTrailing ['5', '/', '0'] ≠ [] ∧
      ((handleAnswer refEngine ⟨['5', '/', '0'], []⟩).result = "Error".toList →
          computePreview refEngine ['5', '/', '0'] = []) ∧
      (handleAnswer refEngine ⟨['5', '/', '0'], []⟩).result = "Error".toList ∧
      computePreview refEngine ['5', '/', '0'] = []) :=
  ⟨⟨by decide, (preview_agrees_with_answer refEngine ['2', '+', '2', '+'] [] (by decide)).1,
      by decide!, by decide!⟩,
    ⟨by decide, (preview_agrees_with_answer refEngine ['5', '/', '0'] [] (by decide)).2,
      by decide!, by decide!⟩⟩

/-! ## Leading zeros -/

theorem splitOnP_mem_chars {p : Char → Bool} (l : Str) :
    ∀ seg ∈ l.splitOnP p, ∀ c ∈ seg, c ∈ l ∧ p c = false := by
  induction l with
  | nil =>
    intro seg hseg c hc
    simp only [List.splitOnP_nil, List.mem_singleton] at hseg
    subst hseg
    exact absurd hc (by simp)
  | cons x xs ih =>
    intro seg hseg c hc
    rw [List.splitOnP_cons] at hseg
    by_cases hx : p x = true
    · rw [if_pos hx] at hseg
      rcases List.mem_cons.mp hseg with h | h
      · subst h; exact absurd hc (by simp)
      · have := ih seg h c hc
        exact ⟨List.mem_cons_of_mem _ this.1, this.2⟩
    · rw [if_neg hx] at hseg
      obtain ⟨h0, t0, h0t⟩ := List.exists_cons_of_ne_nil (List.splitOnP_ne_nil p xs)
      rw [h0t, List.modifyHead_cons] at hseg
      rcases List.mem_cons.mp hseg with h | h
      · subst h
        rcases List.mem_cons.mp hc with h2 | h2
        · subst h2; exact ⟨by simp, by simpa using hx⟩
        · have := ih h0 (by rw [h0t]; simp) c h2
          exact ⟨List.mem_cons_of_mem _ this.1, this.2⟩
      · have := ih seg (by rw [h0t]; exact List.mem_cons_of_mem _ h) c hc
        exact ⟨List.mem_cons_of_mem _ this.1, this.2⟩

theorem splitOnP_map_char (p q : Char → Bool) (f : Char → Char) (l : Str)
    (h : ∀ c ∈ l, q (f c) = p c) :
    (l.map f).splitOnP q = (l.splitOnP p).map (List.map f) := by
  induction l with
  | nil => simp [List.splitOnP_nil]
  | cons x xs ih =>
    have ih2 := ih (fun c hc => h c (List.mem_cons_of_mem _ hc))
    have hx : q (f x) = p x := h x (by simp)
    rw [List.map_cons, List.splitOnP_cons, List.splitOnP_cons, hx, ih2]
    by_cases hp : p x = true
    · simp [hp]
    · obtain ⟨h0, t0, h0t⟩ := List.exists_cons_of_ne_nil (List.splitOnP_ne_nil p xs)
      simp [hp, h0t]

theorem hasAdjacentOperators_cons (c : Char) (cs : Str)
    (h : hasAdjacentOperators (c :: cs) = false) :
    hasAdjacentOperators cs = false ∧ (isOpChar c = true → startsWithOperator cs = false) := by
  cases cs with
  | nil => exact ⟨rfl, fun _ => rfl⟩
  | cons d ds =>
    rw [hasAdjacentOperators, Bool.or_eq_false_iff, Bool.and_eq_false_iff] at h
    refine ⟨h.2, fun hc => ?_⟩
    rcases h.1 with h1 | h1
    · rw [hc] at h1; exact absurd h1 (by decide)
    · exact h1

theorem segments_nonempty_aux (l : Str) :
    hasAdjacentOperators l = false → (l = [] ∨ isOperator (sliceLast l) = false) →
      (∀ seg ∈ (segments l).tail, seg ≠ []) ∧
        (l ≠ [] → startsWithOperator l = false → ∀ seg ∈ segments l, seg ≠ []) := by
  induction l with
  | nil =>
    intro _ _
    refine ⟨?_, fun h => absurd rfl h⟩
    simp [segments, List.splitOnP_nil]
  | cons c cs ih =>
    intro hadj hend
    obtain ⟨hadj1, hadj2⟩ := hasAdjacentOperators_cons c cs hadj
    have hend' : cs = [] ∨ isOperator (sliceLast cs) = false := by
      cases cs with
      | nil => exact Or.inl rfl
      | cons d ds =>
        right
        rcases hend with h | h
        · exact absurd h (by simp)
        · have e : sliceLast (c :: d :: ds) = sliceLast (d :: ds) := by simp [sliceLast]
          rwa [e] at h
    obtain ⟨ih1, ih2⟩ := ih hadj1 hend'
    by_cases hc : isOpChar c = true
    · have hseg : segments (c :: cs) = [] :: segments cs := by
        simp only [segments]
        rw [List.splitOnP_cons, if_pos hc]
      have hcs : cs ≠ [] := by
        rintro rfl
        rcases hend with h | h
        · exact absurd h (by simp)
        · rw [show sliceLast [c] = [c] from rfl] at h
          have hc' : isOperator [c] = true := hc
          rw [hc'] at h
          exact absurd h (by decide)
      refine ⟨?_, ?_⟩
      · rw [hseg, List.tail_cons]
        exact ih2 hcs (hadj2 hc)
      · intro _ hstart
        simp only [startsWithOperator] at hstart
        rw [hc] at hstart
        exact absurd hstart (by decide)
    · obtain ⟨h0, t0, h0t⟩ := List.exists_cons_of_ne_nil (List.splitOnP_ne_nil isOpChar cs)
      have hseg : segments (c :: cs) = (c :: h0) :: t0 := by
        simp only [segments]
        rw [List.splitOnP_cons, if_neg hc, h0t, List.modifyHead_cons]
      have ht : ∀ seg ∈ t0, seg ≠ [] := by
        intro seg hs
        apply ih1
        simp only [segments]
        rw [h0t, List.tail_cons]
        exact hs
      refine ⟨?_, ?_⟩
      · rw [hseg, List.tail_cons]; exact ht
      · intro _ _ seg hs
        rw [hseg] at hs
        rcases List.mem_cons.mp hs with h | h
        · subst h; simp
        · exact ht seg h

theorem literalValues_none (runs : List Str) (run : Str) (hmem : run ∈ runs)
    (h : decimalLiteral? run = none) : literalValues? runs = none := by
  induction runs with
  | nil => exact absurd hmem (by simp)
  | cons r rs ih =>
    rcases List.mem_cons.mp hmem with h1 | h1
    · subst h1
      simp [literalValues?, h]
    · have := ih h1
      rw [literalValues?, this]
      cases decimalLiteral? r <;> rfl

/-- A run that starts with `0` and a further digit is not a strict-mode literal. -/
theorem decimalLiteral_leading_zero (d : Char) (rest : Str) (hd : d.isDigit = true) :
    decimalLiteral? ('0' :: d :: rest) = none := by
  have h0 : ('0' : Char).isDigit = true := by decide
  have htake : ('0' :: d :: rest).takeWhile Char.isDigit =
      '0' :: d :: rest.takeWhile Char.isDigit := by
    simp [List.takeWhile, h0, hd]
  unfold decimalLiteral?
  simp only [htake]
  have hleg : (decide (2 ≤ ('0' :: d :: rest.takeWhile Char.isDigit).length) &&
      ('0' :: d :: rest.takeWhile Char.isDigit).head? == some '0') = true := by
    simp
  simp only [hleg, if_true]
  split
  · rfl
  · split
    · rfl
    · split
      · rename_i hemp
        simp at hemp
      · rfl
  · rfl

theorem toJs_char (c : Char) (h : c.isDigit = true ∨ c = '.' ∨ isOpChar c = true) :
    isPunct (if c = 'X' then '*' else if c = '÷' then '/' else c) = isOpChar c ∧
      ((if c = 'X' then '*' else if c = '÷' then '/' else c).isDigit ||
        (if c = 'X' then '*' else if c = '÷' then '/' else c) == '.' ||
        isPunct (if c = 'X' then '*' else if c = '÷' then '/' else c)) = true := by
  rcases h with h | h | h
  · rw [isDigit_toJs c h]
    have h1 := isDigit_not_punct c h
    have h2 : isOpChar c = false := isDigit_not_operator c h
    simp [h, h1, h2]
  · subst h; decide
  · rw [isOpChar_iff] at h
    rcases h with h | h | h | h | h | h <;> subst h <;> decide

theorem toJsExpr_plain (seg : Str) (h : ∀ c ∈ seg, isOpChar c = false) : toJsExpr seg = seg := by
  unfold toJsExpr
  induction seg with
  | nil => rfl
  | cons c cs ih =>
    have hc := h c (by simp)
    have h1 : c ≠ 'X' := by rintro rfl; exact absurd hc (by decide)
    have h2 : c ≠ '÷' := by rintro rfl; exact absurd hc (by decide)
    rw [List.map_cons, ih (fun x hx => h x (List.mem_cons_of_mem _ hx))]
    simp [h1, h2]

/-- A text of the buttons' characters with well-placed operators, not ending
in one, and with a number segment that starts with `0` and a further digit is
a SyntaxError in strict mode. -/
theorem evalFragment_leading_zero (e : Str)
    (hchars : ∀ c ∈ e, c.isDigit = true ∨ c = '.' ∨ isOpChar c = true)
    (hops : OperatorsOK e) (hlast : isOperator (sliceLast e) = false) (hne : e ≠ [])
    (seg : Str) (hseg : seg ∈ segments e) (d : Char) (rest : Str)
    (hzero : seg = '0' :: d :: rest) (hd : d.isDigit = true) :
    evalFragment (toJsExpr e) = some .threw := by
  have hruns : (toJsExpr e).splitOnP isPunct = segments e := by
    unfold toJsExpr segments
    rw [splitOnP_map_char isOpChar isPunct _ e (fun c hc => (toJs_char c (hchars c hc)).1)]
    have : ∀ s ∈ e.splitOnP isOpChar,
        List.map (fun c => if c = 'X' then '*' else if c = '÷' then '/' else c) s = s := by
      intro s hs
      exact toJsExpr_plain s (fun c hc => (splitOnP_mem_chars e s hs c hc).2)
    rw [List.map_congr_left this, List.map_id']
  have hfrag : inFragment (toJsExpr e) = true := by
    unfold inFragment
    rw [hruns, Bool.and_eq_true]
    constructor
    · rw [List.all_eq_true]
      intro c hc
      unfold toJsExpr at hc
      obtain ⟨c0, hc0, rfl⟩ := List.mem_map.mp hc
      exact (toJs_char c0 (hchars c0 hc0)).2
    · rw [List.all_eq_true]
      intro s hs
      have := (segments_nonempty_aux e hops.2 (Or.inr hlast)).2 hne hops.1 s hs
      cases s with
      | nil => exact absurd rfl this
      | cons _ _ => rfl
  have hnone : literalValues? (segments e) = none :=
    literalValues_none _ seg hseg (by rw [hzero]; exact decimalLiteral_leading_zero d rest hd)
  unfold evalFragment
  rw [if_pos hfrag, hruns, hnone]

theorem split_trailing_operators (e : Str) :
    ∃ b t : Str, e = b ++ t ∧ (b = [] ∨ isOperator (sliceLast b) = false) ∧
      ∀ c ∈ t, isOpChar c = true := by
  induction e using List.reverseRecOn with
  | nil => exact ⟨[], [], rfl, Or.inl rfl, by simp⟩
  | append_singleton l a ih =>
    obtain ⟨b, t, he, hb, ht⟩ := ih
    by_cases ha : isOpChar a = true
    · refine ⟨b, t ++ [a], by rw [he, List.append_assoc], hb, ?_⟩
      intro c hc
      rcases List.mem_append.mp hc with h | h
      · exact ht c h
      · rw [List.mem_singleton] at h; subst h; exact ha
    · refine ⟨l ++ [a], [], by simp, Or.inr ?_, by simp⟩
      rw [sliceLast_snoc]
      simpa [isOpChar] using ha

theorem segments_append_operators (b t : Str) (ht : ∀ c ∈ t, isOpChar c = true) :
    segments (b ++ t) = segments b ++ t.map (fun _ => []) := by
  induction t using List.reverseRecOn with
  | nil => simp
  | append_singleton l a ih =>
    have hl : ∀ c ∈ l, isOpChar c = true := fun c hc => ht c (by simp [hc])
    have ha : isOpChar a = true := ht a (by simp)
    obtain ⟨front, h1, _, h3⟩ := segments_snoc (b ++ l)
    rw [← List.append_assoc, h3 a, if_pos ha, List.map_append, ← List.append_assoc, ← ih hl, h1]
    simp

theorem operatorsOK_of_append (b t : Str) (h : OperatorsOK (b ++ t)) : OperatorsOK b := by
  induction t using List.reverseRecOn with
  | nil => simpa using h
  | append_singleton l a ih =>
    rw [← List.append_assoc] at h
    exact ih (operatorsOK_of_snoc _ a h)

theorem append_chars (val : Str) (st : State)
    (hval : ∀ c ∈ val, c.isDigit = true ∨ c = '.' ∨ isOpChar c = true)
    (h : ∀ c ∈ st.input, c.isDigit = true ∨ c = '.' ∨ isOpChar c = true) :
    ∀ c ∈ (append val st).input, c.isDigit = true ∨ c = '.' ∨ isOpChar c = true := by
  have hinit : ∀ c ∈ sliceInit st.input, c.isDigit = true ∨ c = '.' ∨ isOpChar c = true :=
    fun c hc => h c (List.mem_of_mem_take hc)
  have happ : ∀ x y : Str, (∀ c ∈ x, c.isDigit = true ∨ c = '.' ∨ isOpChar c = true) →
      (∀ c ∈ y, c.isDigit = true ∨ c = '.' ∨ isOpChar c = true) →
      ∀ c ∈ x ++ y, c.isDigit = true ∨ c = '.' ∨ isOpChar c = true := by
    intro x y hx hy c hc
    rcases List.mem_append.mp hc with h1 | h1
    · exact hx c h1
    · exact hy c h1
  have hzd : ∀ c ∈ ['0', '.'], c.isDigit = true ∨ c = '.' ∨ isOpChar c = true := by decide
  have hdot : ∀ c ∈ ['.'], c.isDigit = true ∨ c = '.' ∨ isOpChar c = true := by decide
  unfold append
  simp only
  split
  · split
    · exact h
    · split
      · exact happ _ _ hinit hval
      · exact happ _ _ h hval
  · split
    · split
      · exact h
      · split
        · exact happ _ _ h hzd
        · exact happ _ _ h hdot
    · exact happ _ _ h hval

theorem pressEdit_chars (st : State) (k : EditKey)
    (h : ∀ c ∈ st.input, c.isDigit = true ∨ c = '.' ∨ isOpChar c = true) :
    ∀ c ∈ (pressEdit st k).input, c.isDigit = true ∨ c = '.' ∨ isOpChar c = true := by
  cases k with
  | digit d =>
    apply append_chars _ st _ h
    intro c hc
    simp only [digitLabel, List.mem_singleton] at hc
    subst hc
    exact Or.inl (digitChar_isDigit d.val d.isLt)
  | dot => exact append_chars _ st (by decide) h
  | op o => exact append_chars _ st (by cases o <;> decide) h
  | delete =>
    intro c hc
    simp only [pressEdit, handleDelete] at hc
    split at hc
    · exact h c (List.mem_of_mem_take hc)
    · exact absurd hc (by simp)

theorem pressAll_chars (keys : List EditKey) :
    ∀ st : State, (∀ c ∈ st.input, c.isDigit = true ∨ c = '.' ∨ isOpChar c = true) →
      ∀ c ∈ (pressAll st keys).input, c.isDigit = true ∨ c = '.' ∨ isOpChar c = true := by
  induction keys with
  | nil => intro st h; exact h
  | cons k ks ih =>
    intro st h
    exact ih (pressEdit st k) (pressEdit_chars st k h)

/-- C16: numbers typed with a leading zero cannot be evaluated: for every
buffer reached by digit, decimal-point, operator and Delete presses in which
some number segment begins with `0` followed by another digit, on an engine
that follows ECMAScript Answer commits `Error` and the preview is empty. -/
theorem leading_zero_is_error (run : Str → Outcome) (hconf : Conforms run)
    (keys : List EditKey) (seg : Str) (d : Char) (rest : Str)
    (hseg : seg ∈ segments (pressAll initial keys).input)
    (hzero : seg = '0' :: d :: rest) (hd : d.isDigit = true) :
    handleAnswer run (pressAll initial keys) =
        ⟨(pressAll initial keys).input, "Error".toList⟩ ∧
      computePreview run (pressAll initial keys).input = [] := by
  have hchars := pressAll_chars keys initial (by simp [initial])
  have hops := pressAll_operatorsOK keys initial operatorsOK_nil
  generalize pressAll initial keys = st at hseg hchars hops ⊢
  obtain ⟨b, res⟩ := st
  simp only at hseg hchars hops ⊢
  obtain ⟨b2, t, hb, hb2, ht⟩ := split_trailing_operators b
  have htrim : trimTrailing b = b2 := by rw [hb]; exact trimTrailing_append b2 t hb2 ht
  have hsegne : seg ≠ [] := by rw [hzero]; simp
  have hseg2 : seg ∈ segments b2 := by
    rw [hb, segments_append_operators b2 t ht, List.mem_append] at hseg
    rcases hseg with h | h
    · exact h
    · obtain ⟨_, _, h2⟩ := List.mem_map.mp h
      exact absurd h2.symm hsegne
  have hb2ne : b2 ≠ [] := by
    rintro rfl
    simp only [segments, List.splitOnP_nil, List.mem_singleton] at hseg2
    exact hsegne hseg2
  have hlast : isOperator (sliceLast b2) = false := by
    rcases hb2 with h | h
    · exact absurd h hb2ne
    · exact h
  have hops2 : OperatorsOK b2 := operatorsOK_of_append b2 t (by rw [← hb]; exact hops)
  have hchars2 : ∀ c ∈ b2, c.isDigit = true ∨ c = '.' ∨ isOpChar c = true :=
    fun c hc => hchars c (by rw [hb]; exact List.mem_append_left _ hc)
  have hev := evalFragment_leading_zero b2 hchars2 hops2 hlast hb2ne seg hseg2 d rest hzero hd
  have hrun : run (functionBody (toJsExpr b2)) = .threw :=
    hconf _ _ (by rw [strictEval_functionBody, hev])
  have hbne : b ≠ [] := by
    rw [hb]; simp [hb2ne]
  constructor
  · unfold handleAnswer
    simp only [hbne, htrim, hb2ne, if_false, hrun]
  · unfold computePreview
    simp only [hbne, htrim, hb2ne, if_false, hrun]

theorem leading_zero_is_error_witness :
    Conforms refEngine ∧
      (pressAll initial [.digit 0, .digit 0, .digit 7, .op .plus, .digit 1, .op .minus]).input =
        ['0', '0', '7', '+', '1', '-'] ∧
      ['0', '0', '7'] ∈ segments
        (pressAll initial [.digit 0, .digit 0, .digit 7, .op .plus, .digit 1, .op .minus]).input ∧
      ('0' : Char).isDigit = true ∧
      handleAnswer refEngine
          (pressAll initial [.digit 0, .digit 0, .digit 7, .op .plus, .digit 1, .op .minus]) =
        ⟨(pressAll initial
          [.digit 0, .digit 0, .digit 7, .op .plus, .digit 1, .op .minus]).input,
          "Error".toList⟩ ∧
      computePreview refEngine
          (pressAll initial
            [.digit 0, .digit 0, .digit 7, .op .plus, .digit 1, .op .minus]).input = [] ∧
      handleAnswer refEngine ⟨['0', '5'], []⟩ = ⟨['0', '5'], "Error".toList⟩ ∧
      handleAnswer refEngine ⟨['3', 'X', '0', '1', '0'], []⟩ =
        ⟨['3', 'X', '0', '1', '0'], "Error".toList⟩ :=
  ⟨refEngine_conforms, by decide, by decide, by decide,
    (leading_zero_is_error refEngine refEngine_conforms
      [.digit 0, .digit 0, .digit 7, .op .plus, .digit 1, .op .minus]
      ['0', '0', '7'] '0' ['7'] (by decide) rfl (by decide)).1,
    (leading_zero_is_error refEngine refEngine_conforms
      [.digit 0, .digit 0, .digit 7, .op .plus, .digit 1, .op .minus]
      ['0', '0', '7'] '0' ['7'] (by decide) rfl (by decide)).2,
    by decide!, by decide!⟩

end Calc
